import Mathlib

/-!
# Minesweeper board core: shallow embedding and verification

The repository's UI controllers (src/playground/script.js and the unnamed
controller file) consume a `Board` class imported from `../scripts/structure.js`,
which is not part of the available sources.  Following the specification, the
board core (cell storage, state encoding, mine placement, flood-fill reveal,
chord reveal, overlay marking, outcome tracking, change log, rebuild/resize) is
modelled here from the spec's own operational description.  Randomness of mine
placement is modelled by passing the chosen mine layout (a boolean function on
coordinates) as an explicit argument, with the placement contract (exactly
`mineCount` mines on the grid) stated as a hypothesis where needed.
-/

namespace Minesweeper

/-- Modelled from the spec: the player-visible covering state of a cell
(`Hidden | Flagged | Questioned | Revealed`). -/
inductive Overlay where
  | hidden
  | flagged
  | questioned
  | revealed
deriving DecidableEq, Repr

/-- Modelled from the spec: game outcome (`Undefined | Victory | Defeat`). -/
inductive Outcome where
  | undefined
  | victory
  | defeat
deriving DecidableEq, Repr

/-- Modelled from the spec: immutable 2D integer coordinate used as grid
address and size. -/
structure Coordinate where
  x : Nat
  y : Nat
deriving DecidableEq, Repr

/-- Modelled from the spec: one cell record — mine ground truth, overlay, and
the adjacency count precomputed at build time. -/
structure Cell where
  hasMine : Bool
  overlay : Overlay
  adjacency : Nat
deriving DecidableEq, Repr

/-- Modelled from the spec: `peakDanger`, canonical value 8 — the sentinel
state for a revealed mine. -/
def peakDanger : Nat := 8

/-- Modelled from the spec: the marking cycle
`Hidden → Flagged → Questioned → Hidden` (while `Revealed` is untouched). -/
def Overlay.next : Overlay → Overlay
  | .hidden => .flagged
  | .flagged => .questioned
  | .questioned => .hidden
  | .revealed => .revealed

/-- Row-major flat index of a position (spec: grid is row-major). -/
def posToIndex (size pos : Coordinate) : Nat := pos.y * size.x + pos.x

/-- Inverse of `posToIndex` for in-bounds indices. -/
def indexToPos (size : Coordinate) (i : Nat) : Coordinate := ⟨i % size.x, i / size.x⟩

/-- Position lies in `[0, size.x) x [0, size.y)`. -/
def inRangeB (size pos : Coordinate) : Bool := pos.x < size.x && pos.y < size.y

/-- Modelled from the spec: `GameGrid.get` — `none` models the out-of-range
error of the source contract. -/
def getCell (size : Coordinate) (grid : List Cell) (pos : Coordinate) : Option Cell :=
  if inRangeB size pos then grid[posToIndex size pos]? else none

/-- Modelled from the spec: `GameGrid.set` at an in-range position. -/
def setCell (size : Coordinate) (grid : List Cell) (pos : Coordinate) (c : Cell) : List Cell :=
  grid.set (posToIndex size pos) c

/-- The eight king-move offsets. -/
def neighborOffsets : List (Int × Int) :=
  [(-1, -1), (0, -1), (1, -1), (-1, 0), (1, 0), (-1, 1), (0, 1), (1, 1)]

/-- Modelled from the spec: the neighbor iterator yielding up to 8 valid
in-bounds neighbors (cells sharing an edge or corner, clipped at edges). -/
def neighbors (size pos : Coordinate) : List Coordinate :=
  neighborOffsets.filterMap fun d =>
    let nx : Int := (pos.x : Int) + d.1
    let ny : Int := (pos.y : Int) + d.2
    if 0 ≤ nx ∧ nx < (size.x : Int) ∧ 0 ≤ ny ∧ ny < (size.y : Int) then
      some ⟨nx.toNat, ny.toNat⟩
    else none

/-- Modelled from the spec: count of mine-bearing neighbors of a position,
for a mine layout given as a function. -/
def countMineNeighbors (size : Coordinate) (mineAt : Coordinate → Bool) (pos : Coordinate) : Nat :=
  (neighbors size pos).countP mineAt

/-- Modelled from the spec: `MinePlacement` — mark the chosen cells as mines
and compute every cell's adjacency by counting mine neighbors.  The random
choice is the explicit `mineAt` argument. -/
def buildGrid (size : Coordinate) (mineAt : Coordinate → Bool) : List Cell :=
  (List.range (size.x * size.y)).map fun i =>
    { hasMine := mineAt (indexToPos size i)
      overlay := .hidden
      adjacency := countMineNeighbors size mineAt (indexToPos size i) }

/-- Modelled from the spec: the `Board` facade — size, mine count, row-major
grid, outcome, and the change log (a FIFO queue of batches). -/
structure Board where
  size : Coordinate
  mineCount : Nat
  grid : List Cell
  outcome : Outcome
  changeLog : List (List Coordinate)
deriving Repr

/-- Modelled from the spec: `new(size, mineCount)` — fresh grid with mines
placed, outcome `Undefined`, empty change log. -/
def Board.build (size : Coordinate) (count : Nat) (mineAt : Coordinate → Bool) : Board :=
  { size := size, mineCount := count, grid := buildGrid size mineAt,
    outcome := .undefined, changeLog := [] }

/-- Modelled from the spec: `rebuild()` — same size and count, freshly placed
mine layout, outcome back to `Undefined`, cleared change log. -/
def Board.rebuild (b : Board) (mineAt : Coordinate → Bool) : Board :=
  Board.build b.size b.mineCount mineAt

/-- Modelled from the spec: `getStateAt(pos)` — the encoded integer state:
`-1` hidden, `-2` flagged, `-3` questioned, the adjacency count for a revealed
non-mine cell, `peakDanger` for a revealed mine. -/
def Board.getStateAt (b : Board) (pos : Coordinate) : Option Int :=
  (getCell b.size b.grid pos).map fun c =>
    match c.overlay with
    | .hidden => -1
    | .flagged => -2
    | .questioned => -3
    | .revealed => if c.hasMine then (peakDanger : Int) else (c.adjacency : Int)

/-- Modelled from the spec: `markFieldAt(pos)` — no-op if the cell is
`Revealed` or the game has ended; otherwise cycles the overlay and records the
single changed coordinate in the change log. -/
def Board.markFieldAt (b : Board) (pos : Coordinate) : Board :=
  if b.outcome = .undefined then
    match getCell b.size b.grid pos with
    | none => b
    | some c =>
      if c.overlay = .revealed then b
      else
        { b with
          grid := setCell b.size b.grid pos { c with overlay := c.overlay.next }
          changeLog := b.changeLog ++ [[pos]] }
  else b

/-- Number of cells whose overlay is `Hidden`. -/
def hiddenCount (grid : List Cell) : Nat :=
  grid.countP fun c => c.overlay == .hidden

/-- Modelled from the spec: the breadth-first reveal worklist of `digFieldAt`.
Pops a position; if it is a hidden cell, reveals it (recording it in `acc`)
and, when its adjacency is zero, enqueues its neighbors to continue the
cascade.  `fuel` bounds the iteration count; the caller passes enough fuel
that it never runs out. -/
def revealLoop (size : Coordinate) :
    Nat → List Cell → List Coordinate → List Coordinate → List Cell × List Coordinate
  | 0, grid, _, acc => (grid, acc)
  | fuel + 1, grid, queue, acc =>
    match queue with
    | [] => (grid, acc)
    | pos :: rest =>
      match getCell size grid pos with
      | none => revealLoop size fuel grid rest acc
      | some c =>
        if c.overlay = .hidden then
          let grid' := setCell size grid pos { c with overlay := .revealed }
          if c.adjacency = 0 then
            revealLoop size fuel grid' (rest ++ neighbors size pos) (acc ++ [pos])
          else revealLoop size fuel grid' rest (acc ++ [pos])
        else revealLoop size fuel grid rest acc

/-- All in-range positions in column-major order (spec: batches are ordered
column-major so a UI can animate column by column). -/
def colMajorAll (size : Coordinate) : List Coordinate :=
  (List.range size.x).flatMap fun x => (List.range size.y).map fun y => ⟨x, y⟩

/-- Reveal every mine cell (spec: on defeat, all remaining mines become
visible). -/
def revealMines (grid : List Cell) : List Cell :=
  grid.map fun c => if c.hasMine then { c with overlay := .revealed } else c

/-- The cell at `pos` is a not-yet-revealed mine. -/
def unrevealedMineB (size : Coordinate) (grid : List Cell) (pos : Coordinate) : Bool :=
  match getCell size grid pos with
  | some c => c.hasMine && !(c.overlay == .revealed)
  | none => false

/-- The cell at `pos` has overlay `Hidden`. -/
def hiddenAtB (size : Coordinate) (grid : List Cell) (pos : Coordinate) : Bool :=
  match getCell size grid pos with
  | some c => c.overlay == .hidden
  | none => false

/-- The cell at `pos` has overlay `Flagged`. -/
def flaggedAtB (size : Coordinate) (grid : List Cell) (pos : Coordinate) : Bool :=
  match getCell size grid pos with
  | some c => c.overlay == .flagged
  | none => false

/-- Count of revealed non-mine cells (spec: the victory condition compares
this against `size.x*size.y - mineCount`). -/
def safeRevealed (grid : List Cell) : Nat :=
  grid.countP fun c => !c.hasMine && c.overlay == .revealed

/-- Number of mine cells in the grid. -/
def minesInGrid (grid : List Cell) : Nat :=
  grid.countP fun c => c.hasMine

/-- Number of revealed mine cells. -/
def minesRevealedCount (grid : List Cell) : Nat :=
  grid.countP fun c => c.hasMine && c.overlay == .revealed

/-- Modelled from the spec: `digFieldAt(pos)` — no-op if the cell is not
`Hidden` or the game has ended.  On a mine: reveal it, reveal all remaining
mines, set `outcome = Defeat`, and record the newly revealed cells as one
column-major batch.  Otherwise: breadth-first cascade reveal, one column-major
batch, then the victory re-evaluation. -/
def Board.digFieldAt (b : Board) (pos : Coordinate) : Board :=
  if b.outcome = .undefined then
    match getCell b.size b.grid pos with
    | none => b
    | some c =>
      if c.overlay = .hidden then
        if c.hasMine then
          let batch := (colMajorAll b.size).filter (unrevealedMineB b.size b.grid)
          { b with grid := revealMines b.grid, outcome := .defeat,
                   changeLog := b.changeLog ++ [batch] }
        else
          let r := revealLoop b.size (9 * b.grid.length + 1) b.grid [pos] []
          let batch := (colMajorAll b.size).filter fun q => r.2.contains q
          { b with grid := r.1,
                   outcome :=
                     if safeRevealed r.1 = b.size.x * b.size.y - b.mineCount then .victory
                     else .undefined,
                   changeLog := b.changeLog ++ [batch] }
      else b
  else b

/-- Modelled from the spec: `digPerimeterAt(pos)` (chord) — no-op unless the
game is running and the target cell is `Revealed` with `adjacency > 0` and its
flagged-neighbor count equals its adjacency; then `digFieldAt` is performed on
every neighbor whose overlay is `Hidden`. -/
def Board.digPerimeterAt (b : Board) (pos : Coordinate) : Board :=
  if b.outcome = .undefined then
    match getCell b.size b.grid pos with
    | none => b
    | some c =>
      if c.overlay = .revealed ∧ c.adjacency ≠ 0 then
        if (neighbors b.size pos).countP (flaggedAtB b.size b.grid) = c.adjacency then
          (neighbors b.size pos).foldl
            (fun bb q => if hiddenAtB bb.size bb.grid q then bb.digFieldAt q else bb) b
        else b
      else b
  else b

/-- Modelled from the spec: `resize(size, count)` — validate the new size
(positive integers) and count (`1 ≤ count ≤ area - 1`); on failure report the
domain error (`false`) leaving the board unchanged, on success behave as
rebuild with the new dimensions. -/
def Board.resize (b : Board) (sx sy count : Int) (mineAt : Coordinate → Bool) : Board × Bool :=
  if sx < 1 ∨ sy < 1 then (b, false)
  else if count < 1 ∨ sx * sy - 1 < count then (b, false)
  else (Board.build ⟨sx.toNat, sy.toNat⟩ count.toNat mineAt, true)

/-- Modelled from the spec: `ChangeLog.drainOldest()` — pop and return the
oldest batch, or report emptiness. -/
def drainOldest (log : List (List Coordinate)) :
    Option (List Coordinate) × List (List Coordinate) :=
  match log with
  | [] => (none, [])
  | batch :: rest => (some batch, rest)

/-- Modelled from the spec: `ChangeLog.append(batch)` — enqueue at the back. -/
def appendBatch (log : List (List Coordinate)) (batch : List Coordinate) :
    List (List Coordinate) :=
  log ++ [batch]

/-- The cell at `pos` is a hidden zero-adjacency cell: the cascade passes
through exactly these. -/
def hiddenZeroB (size : Coordinate) (grid : List Cell) (pos : Coordinate) : Bool :=
  match getCell size grid pos with
  | some c => c.overlay == .hidden && c.adjacency == 0
  | none => false

/-- Reachability from a start set through hidden zero-adjacency cells: the
closure the flood fill computes.  A member is either in the start set or a
neighbor of a reachable hidden zero-adjacency cell. -/
inductive ReachSet (size : Coordinate) (grid : List Cell) (start : List Coordinate) :
    Coordinate → Prop where
  | base {q : Coordinate} : q ∈ start → ReachSet size grid start q
  | step {p q : Coordinate} : ReachSet size grid start p → hiddenZeroB size grid p = true →
      q ∈ neighbors size p → ReachSet size grid start q

/-- One cell's possible evolution under a reveal pass: unchanged, or a hidden
cell turned revealed. -/
def CellEvol (c c' : Cell) : Prop :=
  c' = c ∨ (c.overlay = .hidden ∧ c' = { c with overlay := .revealed })

/-- Grid evolution under a reveal pass: cellwise `CellEvol`. -/
def Evol (grid grid' : List Cell) : Prop :=
  List.Forall₂ CellEvol grid grid'

/-- Column-major strict order on coordinates: earlier column first, then
earlier row within a column. -/
def colLt (a b : Coordinate) : Prop :=
  a.x < b.x ∨ (a.x = b.x ∧ a.y < b.y)

/-- Boards reachable through the public interface: a validly constructed board
followed by any sequence of operations.  Mine layouts chosen by the placement
step are constrained to place exactly the requested number of mines. -/
inductive Reachable : Board → Prop where
  | build (size : Coordinate) (count : Nat) (mineAt : Coordinate → Bool) :
      1 ≤ size.x → 1 ≤ size.y → 1 ≤ count → count ≤ size.x * size.y - 1 →
      minesInGrid (buildGrid size mineAt) = count →
      Reachable (Board.build size count mineAt)
  | dig (b : Board) (pos : Coordinate) : Reachable b → Reachable (b.digFieldAt pos)
  | mark (b : Board) (pos : Coordinate) : Reachable b → Reachable (b.markFieldAt pos)
  | chord (b : Board) (pos : Coordinate) : Reachable b → Reachable (b.digPerimeterAt pos)
  | rebuild (b : Board) (mineAt : Coordinate → Bool) : Reachable b →
      minesInGrid (buildGrid b.size mineAt) = b.mineCount →
      Reachable (b.rebuild mineAt)
  | resize (b : Board) (sx sy count : Int) (mineAt : Coordinate → Bool) : Reachable b →
      (1 ≤ sx → 1 ≤ sy → 1 ≤ count → count ≤ sx * sy - 1 →
        minesInGrid (buildGrid ⟨sx.toNat, sy.toNat⟩ mineAt) = count.toNat) →
      Reachable (b.resize sx sy count mineAt).1

/-- The cell at `pos` has a mine (grid ground truth). -/
def mineAtB (size : Coordinate) (grid : List Cell) (pos : Coordinate) : Bool :=
  match getCell size grid pos with
  | some c => c.hasMine
  | none => false

/-- The board invariants maintained by every reachable state. -/
structure WellFormed (b : Board) : Prop where
  sizeX : 1 ≤ b.size.x
  sizeY : 1 ≤ b.size.y
  gridLen : b.grid.length = b.size.x * b.size.y
  countLB : 1 ≤ b.mineCount
  countUB : b.mineCount ≤ b.size.x * b.size.y - 1
  mines : minesInGrid b.grid = b.mineCount
  adj : ∀ pos c, getCell b.size b.grid pos = some c →
      c.adjacency = (neighbors b.size pos).countP (mineAtB b.size b.grid)
  victoryIff : b.outcome = .victory ↔ safeRevealed b.grid = b.size.x * b.size.y - b.mineCount
  defeatIff : b.outcome = .defeat ↔ 0 < minesRevealedCount b.grid
  logSorted : ∀ batch ∈ b.changeLog, batch.Pairwise colLt

/-- Zero-adjacency non-mine cell, regardless of overlay (the region notion the
spec's summary sentence speaks about). -/
def zeroAdjB (size : Coordinate) (grid : List Cell) (pos : Coordinate) : Bool :=
  match getCell size grid pos with
  | some c => !c.hasMine && c.adjacency == 0
  | none => false

/-- Connectivity through zero-adjacency cells irrespective of overlays: the
region the claim (as stated) asserts a dig reveals. -/
inductive ZConn (size : Coordinate) (grid : List Cell) (p0 : Coordinate) : Coordinate → Prop where
  | refl : ZConn size grid p0 p0
  | step {p q : Coordinate} : ZConn size grid p0 p → zeroAdjB size grid p = true →
      q ∈ neighbors size p → ZConn size grid p0 q

/-- Ground truth of a cell (mine flag and adjacency), the part of the grid no
operation after build time may change. -/
def groundAt (b : Board) (q : Coordinate) : Option (Bool × Nat) :=
  (getCell b.size b.grid q).map fun c => (c.hasMine, c.adjacency)

section BasicLemmas

theorem posToIndex_inj {size p q : Coordinate} (hp : p.x < size.x) (hq : q.x < size.x)
    (h : posToIndex size p = posToIndex size q) : p = q := by
  unfold posToIndex at h
  have hx : p.x = q.x := by
    have h1 : (p.y * size.x + p.x) % size.x = (q.y * size.x + q.x) % size.x := by rw [h]
    rwa [Nat.mul_comm p.y size.x, Nat.mul_comm q.y size.x, Nat.mul_add_mod, Nat.mul_add_mod,
      Nat.mod_eq_of_lt hp, Nat.mod_eq_of_lt hq] at h1
  have hsx : 0 < size.x := Nat.lt_of_le_of_lt (Nat.zero_le _) hp
  have hy : p.y = q.y := by
    have h2 : p.y * size.x = q.y * size.x := by omega
    exact Nat.eq_of_mul_eq_mul_right hsx h2
  cases p; cases q; simp_all

theorem inRangeB_iff {size pos : Coordinate} :
    inRangeB size pos = true ↔ pos.x < size.x ∧ pos.y < size.y := by
  simp [inRangeB]

theorem posToIndex_lt {size pos : Coordinate} (h : inRangeB size pos = true) :
    posToIndex size pos < size.x * size.y := by
  rw [inRangeB_iff] at h
  calc posToIndex size pos = pos.y * size.x + pos.x := rfl
  _ < pos.y * size.x + size.x := by omega
  _ = (pos.y + 1) * size.x := by ring
  _ ≤ size.y * size.x := Nat.mul_le_mul_right _ (by omega)
  _ = size.x * size.y := Nat.mul_comm _ _

theorem indexToPos_posToIndex {size pos : Coordinate} (h : inRangeB size pos = true) :
    indexToPos size (posToIndex size pos) = pos := by
  rw [inRangeB_iff] at h
  unfold indexToPos posToIndex
  have hx : (pos.y * size.x + pos.x) % size.x = pos.x := by
    rw [Nat.mul_comm pos.y size.x, Nat.mul_add_mod, Nat.mod_eq_of_lt h.1]
  have hy : (pos.y * size.x + pos.x) / size.x = pos.y := by
    rw [Nat.mul_comm pos.y size.x, Nat.mul_add_div (by omega), Nat.div_eq_of_lt h.1]
    omega
  cases pos; simp_all

theorem inRangeB_indexToPos {size : Coordinate} {i : Nat} (hx : 0 < size.x)
    (h : i < size.x * size.y) : inRangeB size (indexToPos size i) = true := by
  rw [inRangeB_iff]
  unfold indexToPos
  constructor
  · exact Nat.mod_lt _ hx
  · simp only
    rw [Nat.div_lt_iff_lt_mul hx, Nat.mul_comm]
    exact h

theorem posToIndex_indexToPos {size : Coordinate} {i : Nat} :
    posToIndex size (indexToPos size i) = i := by
  unfold indexToPos posToIndex
  simp only
  rw [Nat.mul_comm]
  exact Nat.div_add_mod i size.x

theorem getCell_some_elim {size : Coordinate} {grid : List Cell} {pos : Coordinate} {c : Cell}
    (h : getCell size grid pos = some c) :
    inRangeB size pos = true ∧ posToIndex size pos < grid.length ∧
      grid[posToIndex size pos]? = some c := by
  unfold getCell at h
  by_cases hr : inRangeB size pos
  · rw [if_pos hr] at h
    refine ⟨hr, ?_, h⟩
    rcases List.getElem?_eq_some.mp h with ⟨hlt, _⟩
    exact hlt
  · rw [if_neg hr] at h
    exact absurd h (by simp)

theorem getCell_none_of_not_inRange {size : Coordinate} {grid : List Cell} {pos : Coordinate}
    (h : ¬inRangeB size pos = true) : getCell size grid pos = none := by
  unfold getCell
  rw [if_neg h]

theorem getCell_inRange {size : Coordinate} {grid : List Cell} {pos : Coordinate}
    (h : inRangeB size pos = true) : getCell size grid pos = grid[posToIndex size pos]? := by
  unfold getCell
  rw [if_pos h]

theorem length_setCell (size : Coordinate) (grid : List Cell) (pos : Coordinate) (c : Cell) :
    (setCell size grid pos c).length = grid.length := by
  simp [setCell]

theorem getCell_setCell_self {size : Coordinate} {grid : List Cell} {pos : Coordinate} {c0 : Cell}
    (h : getCell size grid pos = some c0) (c : Cell) :
    getCell size (setCell size grid pos c) pos = some c := by
  obtain ⟨hr, hlt, _⟩ := getCell_some_elim h
  rw [getCell_inRange hr]
  simp [setCell, List.getElem?_set_self', hlt]

theorem getCell_setCell_ne {size : Coordinate} {grid : List Cell} {pos q : Coordinate} {c : Cell}
    (hr : inRangeB size pos = true) (hne : q ≠ pos) :
    getCell size (setCell size grid pos c) q = getCell size grid q := by
  by_cases hq : inRangeB size q
  · rw [getCell_inRange hq, getCell_inRange hq]
    apply List.getElem?_set_ne
    intro heq
    exact hne (posToIndex_inj (inRangeB_iff.mp hr).1 (inRangeB_iff.mp hq).1 heq).symm
  · rw [getCell_none_of_not_inRange hq, getCell_none_of_not_inRange hq]

theorem countP_set_add {α : Type} (p : α → Bool) (l : List α) (i : Nat) (a : α)
    (h : i < l.length) :
    (l.set i a).countP p + (if p l[i] then 1 else 0) =
      l.countP p + (if p a then 1 else 0) := by
  induction l generalizing i with
  | nil => simp at h
  | cons x xs ih =>
    cases i with
    | zero => simp [List.countP_cons]; omega
    | succ n =>
      have h' : n < xs.length := by simpa using h
      have := ih n h'
      simp only [List.set_cons_succ, List.countP_cons, List.getElem_cons_succ]
      omega

end BasicLemmas

section EvolLemmas

theorem cellEvol_refl (c : Cell) : CellEvol c c := Or.inl rfl

theorem cellEvol_trans {a b c : Cell} (h1 : CellEvol a b) (h2 : CellEvol b c) : CellEvol a c := by
  rcases h1 with h1 | ⟨ha, h1⟩
  · subst h1; exact h2
  · rcases h2 with h2 | ⟨hb, h2⟩
    · subst h2; exact Or.inr ⟨ha, h1⟩
    · subst h1; simp at hb

theorem CellEvol.ground {a b : Cell} (h : CellEvol a b) :
    b.hasMine = a.hasMine ∧ b.adjacency = a.adjacency := by
  rcases h with h | ⟨_, h⟩ <;> subst h <;> simp

theorem CellEvol.eq_of_not_hidden {a b : Cell} (h : CellEvol a b) (hn : a.overlay ≠ .hidden) :
    b = a := by
  rcases h with h | ⟨ha, _⟩
  · exact h
  · exact absurd ha hn

theorem CellEvol.overlay_cases {a b : Cell} (h : CellEvol a b) :
    b.overlay = a.overlay ∨ (a.overlay = .hidden ∧ b.overlay = .revealed) := by
  rcases h with h | ⟨ha, h⟩ <;> subst h <;> simp_all

theorem evol_refl (grid : List Cell) : Evol grid grid :=
  List.forall₂_same.mpr fun c _ => cellEvol_refl c

theorem evol_trans {g1 g2 g3 : List Cell} (h1 : Evol g1 g2) (h2 : Evol g2 g3) : Evol g1 g3 := by
  induction h1 generalizing g3 with
  | nil => cases h2; exact .nil
  | cons hab _ ih =>
    cases h2 with
    | cons hbc h2t => exact .cons (cellEvol_trans hab hbc) (ih h2t)

theorem Evol.length_eq {g g' : List Cell} (h : Evol g g') : g'.length = g.length := by
  have := List.Forall₂.length_eq h
  omega

theorem evol_set {l : List Cell} {i : Nat} {a : Cell} (hi : i < l.length)
    (h : CellEvol l[i] a) : Evol l (l.set i a) := by
  induction l generalizing i with
  | nil => simp at hi
  | cons x xs ih =>
    cases i with
    | zero => exact List.Forall₂.cons h (evol_refl xs)
    | succ n =>
      have hn : n < xs.length := by simpa using hi
      exact List.Forall₂.cons (cellEvol_refl x) (ih hn h)

theorem forall2_getElem? {R : Cell → Cell → Prop} {l l' : List Cell}
    (h : List.Forall₂ R l l') (i : Nat) :
    (l[i]? = none ∧ l'[i]? = none) ∨
      ∃ a b, l[i]? = some a ∧ l'[i]? = some b ∧ R a b := by
  induction h generalizing i with
  | nil => simp
  | cons hR _ ih =>
    cases i with
    | zero => exact Or.inr ⟨_, _, by simp, by simp, hR⟩
    | succ n => simpa using ih n

theorem Evol.getCell_rel {g g' : List Cell} (h : Evol g g') (size pos : Coordinate) :
    (getCell size g pos = none ∧ getCell size g' pos = none) ∨
      ∃ c c', getCell size g pos = some c ∧ getCell size g' pos = some c' ∧ CellEvol c c' := by
  by_cases hr : inRangeB size pos
  · rw [getCell_inRange hr, getCell_inRange hr]
    exact forall2_getElem? h _
  · rw [getCell_none_of_not_inRange hr, getCell_none_of_not_inRange hr]
    exact Or.inl ⟨rfl, rfl⟩

theorem Evol.countP_eq {g g' : List Cell} (h : Evol g g') (p : Cell → Bool)
    (hp : ∀ c, p { c with overlay := .revealed } = p c) : g'.countP p = g.countP p := by
  induction h with
  | nil => rfl
  | cons hR _ ih =>
    rcases hR with rfl | ⟨_, rfl⟩ <;> simp [List.countP_cons, ih, hp]

theorem Evol.hiddenAtB_false {g g' : List Cell} (h : Evol g g') {size pos : Coordinate}
    (hn : hiddenAtB size g pos = false) : hiddenAtB size g' pos = false := by
  rcases h.getCell_rel size pos with ⟨h1, h2⟩ | ⟨c, c', h1, h2, hce⟩
  · simp [hiddenAtB, h2]
  · simp only [hiddenAtB, h1] at hn
    rcases hce.overlay_cases with ho | ⟨_, ho⟩
    · simp [hiddenAtB, h2, ho]
      simp_all
    · simp [hiddenAtB, h2, ho]

theorem Evol.hiddenZeroB_false {g g' : List Cell} (h : Evol g g') {size pos : Coordinate}
    (hn : hiddenAtB size g pos = false) : hiddenZeroB size g' pos = false := by
  have := h.hiddenAtB_false hn
  unfold hiddenAtB at this
  unfold hiddenZeroB
  cases hg : getCell size g' pos with
  | none => simp
  | some c => simp_all

theorem Evol.none_rel {g g' : List Cell} (h : Evol g g') {size pos : Coordinate}
    (hn : getCell size g pos = none) : getCell size g' pos = none := by
  rcases h.getCell_rel size pos with ⟨_, h2⟩ | ⟨c, c', h1, _, _⟩
  · exact h2
  · rw [hn] at h1; cases h1

theorem Evol.mineAtB_eq {g g' : List Cell} (h : Evol g g') (size pos : Coordinate) :
    mineAtB size g' pos = mineAtB size g pos := by
  rcases h.getCell_rel size pos with ⟨h1, h2⟩ | ⟨c, c', h1, h2, hce⟩
  · simp [mineAtB, h1, h2]
  · simp [mineAtB, h1, h2, hce.ground.1]

end EvolLemmas

section NeighborLemmas

theorem neighbors_length_le (size pos : Coordinate) : (neighbors size pos).length ≤ 8 :=
  List.length_filterMap_le _ _

theorem neighbors_inRange {size pos q : Coordinate} (h : q ∈ neighbors size pos) :
    inRangeB size q = true := by
  unfold neighbors at h
  rcases List.mem_filterMap.mp h with ⟨d, _, hd⟩
  simp only at hd
  split at hd
  · rename_i hcond
    cases hd
    rw [inRangeB_iff]
    constructor <;> simp <;> omega
  · cases hd

theorem mem_colMajorAll {size q : Coordinate} :
    q ∈ colMajorAll size ↔ inRangeB size q = true := by
  unfold colMajorAll
  rw [inRangeB_iff]
  simp only [List.mem_flatMap, List.mem_map, List.mem_range]
  constructor
  · rintro ⟨x, hx, y, hy, rfl⟩
    exact ⟨hx, hy⟩
  · rintro ⟨hx, hy⟩
    exact ⟨q.x, hx, q.y, hy, rfl⟩

theorem colMajorAll_pairwise (size : Coordinate) : (colMajorAll size).Pairwise colLt := by
  unfold colMajorAll
  induction size.x with
  | zero => simp
  | succ n ih =>
    rw [List.range_succ, List.flatMap_append]
    rw [List.pairwise_append]
    refine ⟨ih, ?_, ?_⟩
    · simp only [List.flatMap_cons, List.flatMap_nil, List.append_nil]
      rw [List.pairwise_map]
      have := List.pairwise_lt_range size.y
      exact this.imp fun hlt => Or.inr ⟨rfl, hlt⟩
    · intro a ha b hb
      simp only [List.flatMap_cons, List.flatMap_nil, List.append_nil, List.mem_map,
        List.mem_range, List.mem_flatMap] at ha hb
      rcases ha with ⟨x1, hx1, y1, hy1, rfl⟩
      rcases hb with ⟨y2, hy2, rfl⟩
      exact Or.inl hx1

end NeighborLemmas

section RevealLoopLemmas

theorem hiddenAtB_true_iff {size : Coordinate} {grid : List Cell} {pos : Coordinate} :
    hiddenAtB size grid pos = true ↔
      ∃ c, getCell size grid pos = some c ∧ c.overlay = .hidden := by
  unfold hiddenAtB
  cases hg : getCell size grid pos with
  | none => simp
  | some c => simp [hg]

theorem hiddenZeroB_true_iff {size : Coordinate} {grid : List Cell} {pos : Coordinate} :
    hiddenZeroB size grid pos = true ↔
      ∃ c, getCell size grid pos = some c ∧ c.overlay = .hidden ∧ c.adjacency = 0 := by
  unfold hiddenZeroB
  cases hg : getCell size grid pos with
  | none => simp
  | some c => simp [hg]

theorem hiddenAtB_of_hiddenZeroB {size : Coordinate} {grid : List Cell} {pos : Coordinate}
    (h : hiddenZeroB size grid pos = true) : hiddenAtB size grid pos = true := by
  rcases hiddenZeroB_true_iff.mp h with ⟨c, hg, ho, _⟩
  exact hiddenAtB_true_iff.mpr ⟨c, hg, ho⟩

theorem hiddenAtB_setCell_revealed_self {size : Coordinate} {grid : List Cell}
    {pos : Coordinate} {c : Cell} (h : getCell size grid pos = some c) :
    hiddenAtB size (setCell size grid pos { c with overlay := .revealed }) pos = false := by
  unfold hiddenAtB
  rw [getCell_setCell_self h]
  rfl

theorem hiddenAtB_setCell_ne {size : Coordinate} {grid : List Cell} {pos q : Coordinate}
    {c : Cell} (hr : inRangeB size pos = true) (hne : q ≠ pos) :
    hiddenAtB size (setCell size grid pos c) q = hiddenAtB size grid q := by
  unfold hiddenAtB
  rw [getCell_setCell_ne hr hne]

theorem hiddenZeroB_setCell_ne {size : Coordinate} {grid : List Cell} {pos q : Coordinate}
    {c : Cell} (hr : inRangeB size pos = true) (hne : q ≠ pos) :
    hiddenZeroB size (setCell size grid pos c) q = hiddenZeroB size grid q := by
  unfold hiddenZeroB
  rw [getCell_setCell_ne hr hne]

theorem getElem_of_getCell_some {size : Coordinate} {grid : List Cell} {pos : Coordinate}
    {c : Cell} (h : getCell size grid pos = some c) (hlt : posToIndex size pos < grid.length) :
    grid[posToIndex size pos] = c := by
  obtain ⟨_, _, hsome⟩ := getCell_some_elim h
  rcases List.getElem?_eq_some.mp hsome with ⟨_, h2⟩
  exact h2

theorem hiddenCount_setCell_revealed {size : Coordinate} {grid : List Cell} {pos : Coordinate}
    {c : Cell} (h : getCell size grid pos = some c) (hc : c.overlay = .hidden) :
    hiddenCount (setCell size grid pos { c with overlay := .revealed }) + 1 =
      hiddenCount grid := by
  obtain ⟨hr, hlt, hsome⟩ := getCell_some_elim h
  have hcell := getElem_of_getCell_some h hlt
  have hcp := countP_set_add (fun c => c.overlay == Overlay.hidden) grid (posToIndex size pos)
    { c with overlay := .revealed } hlt
  rw [hcell] at hcp
  simp only [hc] at hcp
  simp at hcp
  unfold hiddenCount setCell
  omega

theorem evol_setCell_revealed {size : Coordinate} {grid : List Cell} {pos : Coordinate}
    {c : Cell} (h : getCell size grid pos = some c) (hc : c.overlay = .hidden) :
    Evol grid (setCell size grid pos { c with overlay := .revealed }) := by
  obtain ⟨hr, hlt, hsome⟩ := getCell_some_elim h
  apply evol_set hlt
  rw [getElem_of_getCell_some h hlt]
  exact Or.inr ⟨hc, rfl⟩

theorem reachset_transfer {size : Coordinate} {gridA gridB : List Cell}
    {startA startB : List Coordinate}
    (hstep : ∀ p, hiddenZeroB size gridA p = true → hiddenZeroB size gridB p = true)
    (hbase : ∀ q ∈ startA, ReachSet size gridB startB q) :
    ∀ p, ReachSet size gridA startA p → ReachSet size gridB startB p := by
  intro p h
  induction h with
  | base hq => exact hbase _ hq
  | step _ hz hn ih => exact .step ih (hstep _ hz) hn

theorem revealLoop_zero (size : Coordinate) (grid : List Cell) (queue acc : List Coordinate) :
    revealLoop size 0 grid queue acc = (grid, acc) := rfl

theorem revealLoop_nil (size : Coordinate) (fuel : Nat) (grid : List Cell)
    (acc : List Coordinate) : revealLoop size fuel grid [] acc = (grid, acc) := by
  cases fuel <;> rfl

theorem revealLoop_cons_none (size : Coordinate) (fuel : Nat) (grid : List Cell)
    (pos : Coordinate) (rest acc : List Coordinate) (h : getCell size grid pos = none) :
    revealLoop size (fuel + 1) grid (pos :: rest) acc = revealLoop size fuel grid rest acc := by
  simp [revealLoop, h]

theorem revealLoop_cons_not_hidden (size : Coordinate) (fuel : Nat) (grid : List Cell)
    (pos : Coordinate) (rest acc : List Coordinate) (c : Cell)
    (h : getCell size grid pos = some c) (hov : ¬c.overlay = .hidden) :
    revealLoop size (fuel + 1) grid (pos :: rest) acc = revealLoop size fuel grid rest acc := by
  simp [revealLoop, h, hov]

theorem revealLoop_cons_zero (size : Coordinate) (fuel : Nat) (grid : List Cell)
    (pos : Coordinate) (rest acc : List Coordinate) (c : Cell)
    (h : getCell size grid pos = some c) (hov : c.overlay = .hidden) (hz : c.adjacency = 0) :
    revealLoop size (fuel + 1) grid (pos :: rest) acc =
      revealLoop size fuel (setCell size grid pos { c with overlay := .revealed })
        (rest ++ neighbors size pos) (acc ++ [pos]) := by
  simp [revealLoop, h, hov, hz]

theorem revealLoop_cons_pos (size : Coordinate) (fuel : Nat) (grid : List Cell)
    (pos : Coordinate) (rest acc : List Coordinate) (c : Cell)
    (h : getCell size grid pos = some c) (hov : c.overlay = .hidden) (hz : ¬c.adjacency = 0) :
    revealLoop size (fuel + 1) grid (pos :: rest) acc =
      revealLoop size fuel (setCell size grid pos { c with overlay := .revealed })
        rest (acc ++ [pos]) := by
  simp [revealLoop, h, hov, hz]

end RevealLoopLemmas

section RevealLoopSpec

/-- Main invariant of the breadth-first reveal loop.  Given enough fuel, the
loop (a) only turns hidden cells into revealed ones, (b) leaves no queued
position hidden, (c) leaves no neighbor of a run-revealed zero-adjacency cell
hidden, (d) reveals only positions reachable from the queue through hidden
zero-adjacency cells, and (e) accumulates exactly the positions it reveals. -/
theorem revealLoop_spec (size : Coordinate) :
    ∀ (fuel : Nat) (grid : List Cell) (queue acc : List Coordinate),
      9 * hiddenCount grid + queue.length ≤ fuel →
      Evol grid (revealLoop size fuel grid queue acc).1 ∧
      (∀ q ∈ queue, hiddenAtB size (revealLoop size fuel grid queue acc).1 q = false) ∧
      (∀ p, hiddenZeroB size grid p = true →
        hiddenAtB size (revealLoop size fuel grid queue acc).1 p = false →
        ∀ q ∈ neighbors size p,
          hiddenAtB size (revealLoop size fuel grid queue acc).1 q = false) ∧
      (∀ p, hiddenAtB size grid p = true →
        hiddenAtB size (revealLoop size fuel grid queue acc).1 p = false →
        ReachSet size grid queue p) ∧
      (∀ p, p ∈ (revealLoop size fuel grid queue acc).2 ↔
        p ∈ acc ∨ (hiddenAtB size grid p = true ∧
          hiddenAtB size (revealLoop size fuel grid queue acc).1 p = false)) := by
  intro fuel
  induction fuel with
  | zero =>
    intro grid queue acc hfuel
    have hq : queue = [] := List.eq_nil_of_length_eq_zero (by omega)
    subst hq
    rw [revealLoop_zero]
    refine ⟨evol_refl grid, by simp, ?_, ?_, ?_⟩
    · intro p hpz hpf
      exact absurd (hiddenAtB_of_hiddenZeroB hpz) (by simp [hpf])
    · intro p hph hpf
      exact absurd hph (by simp [hpf])
    · intro p
      constructor
      · intro hin; exact Or.inl hin
      · rintro (hin | ⟨h1, h2⟩)
        · exact hin
        · rw [h1] at h2; cases h2
  | succ fuel ih =>
    intro grid queue acc hfuel
    cases queue with
    | nil =>
      rw [revealLoop_nil]
      refine ⟨evol_refl grid, by simp, ?_, ?_, ?_⟩
      · intro p hpz hpf
        exact absurd (hiddenAtB_of_hiddenZeroB hpz) (by simp [hpf])
      · intro p hph hpf
        exact absurd hph (by simp [hpf])
      · intro p
        constructor
        · intro hin; exact Or.inl hin
        · rintro (hin | ⟨h1, h2⟩)
          · exact hin
          · rw [h1] at h2; cases h2
    | cons pos rest =>
      have hlen : (pos :: rest).length = rest.length + 1 := rfl
      cases hget : getCell size grid pos with
      | none =>
        rw [revealLoop_cons_none size fuel grid pos rest acc hget]
        have hfuel' : 9 * hiddenCount grid + rest.length ≤ fuel := by
          rw [hlen] at hfuel; omega
        obtain ⟨ha, hb, hc2, hd, he⟩ := ih grid rest acc hfuel'
        refine ⟨ha, ?_, hc2, ?_, he⟩
        · intro q hq
          rcases List.mem_cons.mp hq with rfl | hq
          · unfold hiddenAtB
            rw [ha.none_rel hget]
          · exact hb q hq
        · intro p hph hpf
          exact reachset_transfer (fun r hr => hr)
            (fun q hq => .base (List.mem_cons_of_mem pos hq)) p (hd p hph hpf)
      | some c =>
        by_cases hov : c.overlay = .hidden
        · have hr : inRangeB size pos = true := (getCell_some_elim hget).1
          have hdec := hiddenCount_setCell_revealed hget hov
          have hnb := neighbors_length_le size pos
          have hposHidden : hiddenAtB size grid pos = true :=
            hiddenAtB_true_iff.mpr ⟨c, hget, hov⟩
          by_cases hz : c.adjacency = 0
          · rw [revealLoop_cons_zero size fuel grid pos rest acc c hget hov hz]
            have hfuel2 : 9 * hiddenCount grid + (rest.length + 1) ≤ fuel + 1 := by
              rw [hlen] at hfuel; exact hfuel
            have hfuel' : 9 * hiddenCount (setCell size grid pos { c with overlay := .revealed })
                + (rest ++ neighbors size pos).length ≤ fuel := by
              rw [List.length_append]
              omega
            obtain ⟨ha, hb, hc2, hd, he⟩ :=
              ih (setCell size grid pos { c with overlay := .revealed })
                (rest ++ neighbors size pos) (acc ++ [pos]) hfuel'
            have hEvolStep := evol_setCell_revealed hget hov
            have hposNotMid := hiddenAtB_setCell_revealed_self hget
            have hposNotFinal := ha.hiddenAtB_false hposNotMid
            have hposZero : hiddenZeroB size grid pos = true :=
              hiddenZeroB_true_iff.mpr ⟨c, hget, hov, hz⟩
            refine ⟨evol_trans hEvolStep ha, ?_, ?_, ?_, ?_⟩
            · intro q hq
              rcases List.mem_cons.mp hq with rfl | hq
              · exact hposNotFinal
              · exact hb q (List.mem_append_left _ hq)
            · intro p hpz hpf
              by_cases hpp : p = pos
              · subst hpp
                intro q hqn
                exact hb q (List.mem_append_right _ hqn)
              · have hpz' : hiddenZeroB size
                    (setCell size grid pos { c with overlay := .revealed }) p = true := by
                  rw [hiddenZeroB_setCell_ne hr hpp]; exact hpz
                exact hc2 p hpz' hpf
            · intro p hph hpf
              by_cases hpp : p = pos
              · subst hpp
                exact .base (List.mem_cons_self _ _)
              · have hph' : hiddenAtB size
                    (setCell size grid pos { c with overlay := .revealed }) p = true := by
                  rw [hiddenAtB_setCell_ne hr hpp]; exact hph
                refine reachset_transfer ?_ ?_ p (hd p hph' hpf)
                · intro r hrz
                  by_cases hrp : r = pos
                  · subst hrp
                    exact absurd (hiddenAtB_of_hiddenZeroB hrz) (by simp [hposNotMid])
                  · rwa [hiddenZeroB_setCell_ne hr hrp] at hrz
                · intro q hq
                  rcases List.mem_append.mp hq with hq | hq
                  · exact .base (List.mem_cons_of_mem pos hq)
                  · exact .step (.base (List.mem_cons_self _ _)) hposZero hq
            · intro p
              rw [he p]
              by_cases hpp : p = pos
              · subst hpp
                simp only [List.mem_append, List.mem_singleton]
                constructor
                · intro _; exact Or.inr ⟨hposHidden, hposNotFinal⟩
                · intro _
                  refine Or.inl ?_
                  simp
              · have heq : hiddenAtB size
                    (setCell size grid pos { c with overlay := .revealed }) p =
                      hiddenAtB size grid p := hiddenAtB_setCell_ne hr hpp
                simp only [List.mem_append, List.mem_singleton]
                constructor
                · rintro ((hin | hin) | ⟨h1, h2⟩)
                  · exact Or.inl hin
                  · exact absurd hin hpp
                  · refine Or.inr ⟨?_, h2⟩
                    rw [heq] at h1
                    exact h1
                · rintro (hin | ⟨h1, h2⟩)
                  · exact Or.inl (Or.inl hin)
                  · refine Or.inr ⟨?_, h2⟩
                    rw [heq]
                    exact h1
          · rw [revealLoop_cons_pos size fuel grid pos rest acc c hget hov hz]
            have hfuel' : 9 * hiddenCount (setCell size grid pos { c with overlay := .revealed })
                + rest.length ≤ fuel := by
              rw [hlen] at hfuel; omega
            obtain ⟨ha, hb, hc2, hd, he⟩ :=
              ih (setCell size grid pos { c with overlay := .revealed }) rest (acc ++ [pos]) hfuel'
            have hEvolStep := evol_setCell_revealed hget hov
            have hposNotMid := hiddenAtB_setCell_revealed_self hget
            have hposNotFinal := ha.hiddenAtB_false hposNotMid
            refine ⟨evol_trans hEvolStep ha, ?_, ?_, ?_, ?_⟩
            · intro q hq
              rcases List.mem_cons.mp hq with rfl | hq
              · exact hposNotFinal
              · exact hb q hq
            · intro p hpz hpf
              by_cases hpp : p = pos
              · subst hpp
                rcases hiddenZeroB_true_iff.mp hpz with ⟨c0, hg0, _, hz0⟩
                rw [hget] at hg0
                cases hg0
                exact absurd hz0 hz
              · have hpz' : hiddenZeroB size
                    (setCell size grid pos { c with overlay := .revealed }) p = true := by
                  rw [hiddenZeroB_setCell_ne hr hpp]; exact hpz
                exact hc2 p hpz' hpf
            · intro p hph hpf
              by_cases hpp : p = pos
              · subst hpp
                exact .base (List.mem_cons_self _ _)
              · have hph' : hiddenAtB size
                    (setCell size grid pos { c with overlay := .revealed }) p = true := by
                  rw [hiddenAtB_setCell_ne hr hpp]; exact hph
                refine reachset_transfer ?_ ?_ p (hd p hph' hpf)
                · intro r hrz
                  by_cases hrp : r = pos
                  · subst hrp
                    exact absurd (hiddenAtB_of_hiddenZeroB hrz) (by simp [hposNotMid])
                  · rwa [hiddenZeroB_setCell_ne hr hrp] at hrz
                · intro q hq
                  exact .base (List.mem_cons_of_mem pos hq)
            · intro p
              rw [he p]
              by_cases hpp : p = pos
              · subst hpp
                simp only [List.mem_append, List.mem_singleton]
                constructor
                · intro _; exact Or.inr ⟨hiddenAtB_true_iff.mpr ⟨c, hget, hov⟩, hposNotFinal⟩
                · intro _
                  refine Or.inl ?_
                  simp
              · have heq : hiddenAtB size
                    (setCell size grid pos { c with overlay := .revealed }) p =
                      hiddenAtB size grid p := hiddenAtB_setCell_ne hr hpp
                simp only [List.mem_append, List.mem_singleton]
                constructor
                · rintro ((hin | hin) | ⟨h1, h2⟩)
                  · exact Or.inl hin
                  · exact absurd hin hpp
                  · refine Or.inr ⟨?_, h2⟩
                    rw [heq] at h1
                    exact h1
                · rintro (hin | ⟨h1, h2⟩)
                  · exact Or.inl (Or.inl hin)
                  · refine Or.inr ⟨?_, h2⟩
                    rw [heq]
                    exact h1
        · rw [revealLoop_cons_not_hidden size fuel grid pos rest acc c hget hov]
          have hfuel' : 9 * hiddenCount grid + rest.length ≤ fuel := by
            rw [hlen] at hfuel; omega
          obtain ⟨ha, hb, hc2, hd, he⟩ := ih grid rest acc hfuel'
          refine ⟨ha, ?_, hc2, ?_, he⟩
          · intro q hq
            rcases List.mem_cons.mp hq with rfl | hq
            · apply ha.hiddenAtB_false
              unfold hiddenAtB
              rw [hget]
              simpa using hov
            · exact hb q hq
          · intro p hph hpf
            exact reachset_transfer (fun r hr => hr)
              (fun q hq => .base (List.mem_cons_of_mem pos hq)) p (hd p hph hpf)

end RevealLoopSpec

section OpLemmas

theorem hiddenCount_le_length (grid : List Cell) : hiddenCount grid ≤ grid.length :=
  List.countP_le_length _

theorem revealLoop_fuel_ok (b : Board) (pos : Coordinate) :
    9 * hiddenCount b.grid + ([pos] : List Coordinate).length ≤ 9 * b.grid.length + 1 := by
  have := hiddenCount_le_length b.grid
  simp only [List.length_singleton]
  omega

/-- Corollary of the loop invariant: everything reachable from the queue
through hidden zero-adjacency cells ends up not hidden. -/
theorem revealLoop_complete (size : Coordinate) (fuel : Nat) (grid : List Cell)
    (queue acc : List Coordinate) (hfuel : 9 * hiddenCount grid + queue.length ≤ fuel) :
    ∀ p, ReachSet size grid queue p →
      hiddenAtB size (revealLoop size fuel grid queue acc).1 p = false := by
  obtain ⟨_, hb, hc2, _, _⟩ := revealLoop_spec size fuel grid queue acc hfuel
  intro p h
  induction h with
  | base hq => exact hb _ hq
  | step _ hz hn ih => exact hc2 _ hz ih _ hn

theorem getCell_map (f : Cell → Cell) (size : Coordinate) (grid : List Cell)
    (pos : Coordinate) :
    getCell size (grid.map f) pos = (getCell size grid pos).map f := by
  by_cases hr : inRangeB size pos
  · rw [getCell_inRange hr, getCell_inRange hr, List.getElem?_map]
  · rw [getCell_none_of_not_inRange hr, getCell_none_of_not_inRange hr]
    rfl

theorem digFieldAt_noop_ended {b : Board} (pos : Coordinate) (ho : ¬b.outcome = .undefined) :
    b.digFieldAt pos = b := by
  unfold Board.digFieldAt
  rw [if_neg ho]

theorem digFieldAt_noop_none {b : Board} {pos : Coordinate}
    (h : getCell b.size b.grid pos = none) : b.digFieldAt pos = b := by
  unfold Board.digFieldAt
  by_cases ho : b.outcome = .undefined
  · rw [if_pos ho, h]
  · rw [if_neg ho]

theorem digFieldAt_noop_not_hidden {b : Board} {pos : Coordinate} {c : Cell}
    (hget : getCell b.size b.grid pos = some c) (hov : ¬c.overlay = .hidden) :
    b.digFieldAt pos = b := by
  unfold Board.digFieldAt
  by_cases ho : b.outcome = .undefined
  · rw [if_pos ho, hget]
    simp [hov]
  · rw [if_neg ho]

theorem digFieldAt_noop_of_not_hiddenAtB {b : Board} {pos : Coordinate}
    (h : hiddenAtB b.size b.grid pos = false) : b.digFieldAt pos = b := by
  cases hget : getCell b.size b.grid pos with
  | none => exact digFieldAt_noop_none hget
  | some c =>
    apply digFieldAt_noop_not_hidden hget
    unfold hiddenAtB at h
    rw [hget] at h
    simpa using h

theorem digFieldAt_mine_eq {b : Board} {pos : Coordinate} {c : Cell}
    (ho : b.outcome = .undefined) (hget : getCell b.size b.grid pos = some c)
    (hov : c.overlay = .hidden) (hm : c.hasMine = true) :
    b.digFieldAt pos =
      { b with
        grid := revealMines b.grid
        outcome := .defeat
        changeLog := b.changeLog ++
          [(colMajorAll b.size).filter (unrevealedMineB b.size b.grid)] } := by
  unfold Board.digFieldAt
  rw [if_pos ho, hget]
  simp [hov, hm]

theorem digFieldAt_safe_eq {b : Board} {pos : Coordinate} {c : Cell}
    (ho : b.outcome = .undefined) (hget : getCell b.size b.grid pos = some c)
    (hov : c.overlay = .hidden) (hm : c.hasMine = false) :
    b.digFieldAt pos =
      { b with
        grid := (revealLoop b.size (9 * b.grid.length + 1) b.grid [pos] []).1,
        outcome :=
          if safeRevealed (revealLoop b.size (9 * b.grid.length + 1) b.grid [pos] []).1 =
              b.size.x * b.size.y - b.mineCount then .victory
          else .undefined,
        changeLog := b.changeLog ++ [(colMajorAll b.size).filter fun q =>
          (revealLoop b.size (9 * b.grid.length + 1) b.grid [pos] []).2.contains q] } := by
  unfold Board.digFieldAt
  rw [if_pos ho, hget]
  simp [hov, hm]

theorem digFieldAt_size (b : Board) (pos : Coordinate) :
    (b.digFieldAt pos).size = b.size ∧ (b.digFieldAt pos).mineCount = b.mineCount := by
  by_cases ho : b.outcome = .undefined
  · cases hget : getCell b.size b.grid pos with
    | none => rw [digFieldAt_noop_none hget]; exact ⟨rfl, rfl⟩
    | some c =>
      by_cases hov : c.overlay = .hidden
      · cases hm : c.hasMine with
        | false => rw [digFieldAt_safe_eq ho hget hov hm]; exact ⟨rfl, rfl⟩
        | true => rw [digFieldAt_mine_eq ho hget hov hm]; exact ⟨rfl, rfl⟩
      · rw [digFieldAt_noop_not_hidden hget hov]; exact ⟨rfl, rfl⟩
  · rw [digFieldAt_noop_ended pos ho]; exact ⟨rfl, rfl⟩

theorem revealMines_ground (grid : List Cell) (size : Coordinate) (q : Coordinate) :
    (getCell size (revealMines grid) q).map (fun c => (c.hasMine, c.adjacency)) =
      (getCell size grid q).map (fun c => (c.hasMine, c.adjacency)) := by
  unfold revealMines
  rw [getCell_map]
  cases getCell size grid q with
  | none => rfl
  | some c =>
    cases hm : c.hasMine <;> simp [hm]

theorem revealMines_not_hidden {grid : List Cell} {size : Coordinate} {q : Coordinate}
    (h : hiddenAtB size grid q = false) : hiddenAtB size (revealMines grid) q = false := by
  unfold hiddenAtB at h ⊢
  unfold revealMines
  rw [getCell_map]
  cases hget : getCell size grid q with
  | none => rfl
  | some c =>
    rw [hget] at h
    cases hm : c.hasMine <;> simp_all

theorem digFieldAt_grid_evol_or_mines (b : Board) (pos : Coordinate) :
    (b.digFieldAt pos).grid = b.grid ∨ Evol b.grid (b.digFieldAt pos).grid ∨
      (b.digFieldAt pos).grid = revealMines b.grid := by
  by_cases ho : b.outcome = .undefined
  · cases hget : getCell b.size b.grid pos with
    | none => rw [digFieldAt_noop_none hget]; exact Or.inl rfl
    | some c =>
      by_cases hov : c.overlay = .hidden
      · cases hm : c.hasMine with
        | false =>
          rw [digFieldAt_safe_eq ho hget hov hm]
          refine Or.inr (Or.inl ?_)
          exact (revealLoop_spec b.size _ b.grid [pos] [] (revealLoop_fuel_ok b pos)).1
        | true =>
          rw [digFieldAt_mine_eq ho hget hov hm]
          exact Or.inr (Or.inr rfl)
      · rw [digFieldAt_noop_not_hidden hget hov]; exact Or.inl rfl
  · rw [digFieldAt_noop_ended pos ho]; exact Or.inl rfl

theorem digFieldAt_not_hidden_mono {b : Board} (pos : Coordinate) {q : Coordinate}
    (h : hiddenAtB b.size b.grid q = false) :
    hiddenAtB b.size (b.digFieldAt pos).grid q = false := by
  rcases digFieldAt_grid_evol_or_mines b pos with hg | hg | hg
  · rw [hg]; exact h
  · exact hg.hiddenAtB_false h
  · rw [hg]; exact revealMines_not_hidden h

theorem digFieldAt_ground (b : Board) (pos q : Coordinate) :
    groundAt (b.digFieldAt pos) q = groundAt b q := by
  unfold groundAt
  rw [(digFieldAt_size b pos).1]
  rcases digFieldAt_grid_evol_or_mines b pos with hg | hg | hg
  · rw [hg]
  · rcases hg.getCell_rel b.size q with ⟨h1, h2⟩ | ⟨c, c', h1, h2, hce⟩
    · rw [h1, h2]
    · rw [h1, h2]
      obtain ⟨hm, ha⟩ := hce.ground
      simp [hm, ha]
  · rw [hg]
    exact revealMines_ground b.grid b.size q

theorem digFieldAt_gridLen (b : Board) (pos : Coordinate) :
    (b.digFieldAt pos).grid.length = b.grid.length := by
  rcases digFieldAt_grid_evol_or_mines b pos with hg | hg | hg
  · rw [hg]
  · exact hg.length_eq
  · rw [hg]; simp [revealMines]

theorem markFieldAt_noop_ended {b : Board} (pos : Coordinate) (ho : ¬b.outcome = .undefined) :
    b.markFieldAt pos = b := by
  unfold Board.markFieldAt
  rw [if_neg ho]

theorem markFieldAt_noop_none {b : Board} {pos : Coordinate}
    (h : getCell b.size b.grid pos = none) : b.markFieldAt pos = b := by
  unfold Board.markFieldAt
  by_cases ho : b.outcome = .undefined
  · rw [if_pos ho, h]
  · rw [if_neg ho]

theorem markFieldAt_noop_revealed {b : Board} {pos : Coordinate} {c : Cell}
    (hget : getCell b.size b.grid pos = some c) (hov : c.overlay = .revealed) :
    b.markFieldAt pos = b := by
  unfold Board.markFieldAt
  by_cases ho : b.outcome = .undefined
  · rw [if_pos ho, hget]
    simp [hov]
  · rw [if_neg ho]

theorem markFieldAt_eq {b : Board} {pos : Coordinate} {c : Cell}
    (ho : b.outcome = .undefined) (hget : getCell b.size b.grid pos = some c)
    (hov : ¬c.overlay = .revealed) :
    b.markFieldAt pos =
      { b with
        grid := setCell b.size b.grid pos { c with overlay := c.overlay.next }
        changeLog := b.changeLog ++ [[pos]] } := by
  unfold Board.markFieldAt
  rw [if_pos ho, hget]
  simp [hov]

theorem markFieldAt_size (b : Board) (pos : Coordinate) :
    (b.markFieldAt pos).size = b.size ∧ (b.markFieldAt pos).mineCount = b.mineCount ∧
      (b.markFieldAt pos).outcome = b.outcome := by
  by_cases ho : b.outcome = .undefined
  · cases hget : getCell b.size b.grid pos with
    | none => rw [markFieldAt_noop_none hget]; exact ⟨rfl, rfl, rfl⟩
    | some c =>
      by_cases hov : c.overlay = .revealed
      · rw [markFieldAt_noop_revealed hget hov]; exact ⟨rfl, rfl, rfl⟩
      · rw [markFieldAt_eq ho hget hov]; exact ⟨rfl, rfl, rfl⟩
  · rw [markFieldAt_noop_ended pos ho]; exact ⟨rfl, rfl, rfl⟩

end OpLemmas

section WellFormedLemmas

theorem countP_congr_eq {α : Type} {l : List α} {p q : α → Bool} (h : ∀ a ∈ l, p a = q a) :
    l.countP p = l.countP q :=
  List.countP_congr fun a ha => by rw [h a ha]

theorem countP_setCell_eq {size : Coordinate} {grid : List Cell} {pos : Coordinate}
    {c : Cell} (c' : Cell) (hget : getCell size grid pos = some c) (p : Cell → Bool)
    (hpc : p c' = p c) : (setCell size grid pos c').countP p = grid.countP p := by
  obtain ⟨hr, hlt, _⟩ := getCell_some_elim hget
  have hadd := countP_set_add p grid (posToIndex size pos) c' hlt
  rw [getElem_of_getCell_some hget hlt, hpc] at hadd
  unfold setCell
  omega

theorem mineAtB_setCell {size : Coordinate} {grid : List Cell} {pos : Coordinate}
    {c : Cell} (c' : Cell) (hget : getCell size grid pos = some c) (hmm : c'.hasMine = c.hasMine)
    (q : Coordinate) : mineAtB size (setCell size grid pos c') q = mineAtB size grid q := by
  by_cases hq : q = pos
  · subst hq
    unfold mineAtB
    rw [getCell_setCell_self hget, hget]
    simp [hmm]
  · unfold mineAtB
    rw [getCell_setCell_ne (getCell_some_elim hget).1 hq]

theorem buildGrid_length (size : Coordinate) (mineAt : Coordinate → Bool) :
    (buildGrid size mineAt).length = size.x * size.y := by
  simp [buildGrid]

theorem getCell_buildGrid {size pos : Coordinate} {mineAt : Coordinate → Bool}
    (hr : inRangeB size pos = true) :
    getCell size (buildGrid size mineAt) pos =
      some { hasMine := mineAt pos, overlay := .hidden,
             adjacency := countMineNeighbors size mineAt pos } := by
  rw [getCell_inRange hr]
  unfold buildGrid
  have hlt := posToIndex_lt hr
  rw [List.getElem?_map, List.getElem?_range hlt]
  simp [indexToPos_posToIndex hr]

theorem getCell_buildGrid_elim {size pos : Coordinate} {mineAt : Coordinate → Bool} {c : Cell}
    (h : getCell size (buildGrid size mineAt) pos = some c) :
    c = { hasMine := mineAt pos, overlay := .hidden,
          adjacency := countMineNeighbors size mineAt pos } := by
  by_cases hr : inRangeB size pos
  · rw [getCell_buildGrid hr] at h
    exact (Option.some_inj.mp h).symm
  · rw [getCell_none_of_not_inRange hr] at h
    cases h

theorem mineAtB_buildGrid {size q : Coordinate} {mineAt : Coordinate → Bool}
    (hq : inRangeB size q = true) :
    mineAtB size (buildGrid size mineAt) q = mineAt q := by
  unfold mineAtB
  rw [getCell_buildGrid hq]

theorem buildGrid_all_hidden {size : Coordinate} {mineAt : Coordinate → Bool} {c : Cell}
    (h : c ∈ buildGrid size mineAt) : c.overlay = .hidden := by
  unfold buildGrid at h
  rcases List.mem_map.mp h with ⟨i, _, rfl⟩
  rfl

theorem safeRevealed_buildGrid (size : Coordinate) (mineAt : Coordinate → Bool) :
    safeRevealed (buildGrid size mineAt) = 0 := by
  unfold safeRevealed
  rw [List.countP_eq_zero]
  intro c hc
  rw [buildGrid_all_hidden hc]
  simp

theorem minesRevealedCount_buildGrid (size : Coordinate) (mineAt : Coordinate → Bool) :
    minesRevealedCount (buildGrid size mineAt) = 0 := by
  unfold minesRevealedCount
  rw [List.countP_eq_zero]
  intro c hc
  rw [buildGrid_all_hidden hc]
  simp

theorem wf_build {size : Coordinate} {count : Nat} {mineAt : Coordinate → Bool}
    (hx : 1 ≤ size.x) (hy : 1 ≤ size.y) (hc1 : 1 ≤ count)
    (hc2 : count ≤ size.x * size.y - 1)
    (hmines : minesInGrid (buildGrid size mineAt) = count) :
    WellFormed (Board.build size count mineAt) := by
  have harea : 1 ≤ size.x * size.y := Nat.one_le_iff_ne_zero.mpr (by positivity)
  refine ⟨hx, hy, buildGrid_length size mineAt, hc1, hc2, hmines, ?_, ?_, ?_, ?_⟩
  · intro pos c hget
    have hr : inRangeB size pos = true := (getCell_some_elim hget).1
    rw [getCell_buildGrid_elim hget]
    unfold countMineNeighbors
    apply countP_congr_eq
    intro q hq
    exact (mineAtB_buildGrid (neighbors_inRange hq)).symm
  · constructor
    · intro h; cases h
    · intro h
      have h2 : safeRevealed (buildGrid size mineAt) = size.x * size.y - count := h
      rw [safeRevealed_buildGrid] at h2
      omega
  · constructor
    · intro h; cases h
    · intro h
      have h2 : 0 < minesRevealedCount (buildGrid size mineAt) := h
      rw [minesRevealedCount_buildGrid] at h2
      omega
  · intro batch hb
    cases hb

theorem overlay_next_ne_revealed {o : Overlay} (h : ¬o = .revealed) :
    ¬o.next = .revealed := by
  cases o <;> simp [Overlay.next] at *

theorem wf_mark (b : Board) (pos : Coordinate) (h : WellFormed b) :
    WellFormed (b.markFieldAt pos) := by
  by_cases ho : b.outcome = .undefined
  · cases hget : getCell b.size b.grid pos with
    | none => rw [markFieldAt_noop_none hget]; exact h
    | some c =>
      by_cases hov : c.overlay = .revealed
      · rw [markFieldAt_noop_revealed hget hov]; exact h
      · rw [markFieldAt_eq ho hget hov]
        have hr := (getCell_some_elim hget).1
        have hmAt := mineAtB_setCell { c with overlay := c.overlay.next } hget rfl
        refine ⟨h.sizeX, h.sizeY, ?_, h.countLB, h.countUB, ?_, ?_, ?_, ?_, ?_⟩
        · show (setCell b.size b.grid pos { c with overlay := c.overlay.next }).length =
            b.size.x * b.size.y
          rw [length_setCell]
          exact h.gridLen
        · show minesInGrid (setCell b.size b.grid pos { c with overlay := c.overlay.next }) =
            b.mineCount
          unfold minesInGrid
          rw [countP_setCell_eq { c with overlay := c.overlay.next } hget
            (fun x => x.hasMine) rfl]
          exact h.mines
        · show ∀ q cq,
            getCell b.size (setCell b.size b.grid pos { c with overlay := c.overlay.next }) q =
              some cq →
            cq.adjacency = (neighbors b.size q).countP
              (mineAtB b.size (setCell b.size b.grid pos { c with overlay := c.overlay.next }))
          intro q cq hgq
          by_cases hq : q = pos
          · subst hq
            rw [getCell_setCell_self hget] at hgq
            cases hgq
            have hadjc := h.adj _ c hget
            show c.adjacency = _
            refine hadjc.trans ?_
            apply countP_congr_eq
            intro r hr2
            exact (hmAt r).symm
          · rw [getCell_setCell_ne hr hq] at hgq
            rw [h.adj q cq hgq]
            apply countP_congr_eq
            intro r hr2
            exact (hmAt r).symm
        · show b.outcome = .victory ↔
            safeRevealed (setCell b.size b.grid pos { c with overlay := c.overlay.next }) =
              b.size.x * b.size.y - b.mineCount
          unfold safeRevealed
          have h1 : (c.overlay.next == Overlay.revealed) = false := by
            simpa using overlay_next_ne_revealed hov
          have h2 : (c.overlay == Overlay.revealed) = false := by simpa using hov
          rw [countP_setCell_eq { c with overlay := c.overlay.next } hget]
          · exact h.victoryIff
          · simp [h1, h2]
        · show b.outcome = .defeat ↔
            0 < minesRevealedCount
              (setCell b.size b.grid pos { c with overlay := c.overlay.next })
          unfold minesRevealedCount
          have h1 : (c.overlay.next == Overlay.revealed) = false := by
            simpa using overlay_next_ne_revealed hov
          have h2 : (c.overlay == Overlay.revealed) = false := by simpa using hov
          rw [countP_setCell_eq { c with overlay := c.overlay.next } hget]
          · exact h.defeatIff
          · simp [h1, h2]
        · show ∀ batch ∈ b.changeLog ++ [[pos]], batch.Pairwise colLt
          intro batch hb
          simp only [List.mem_append, List.mem_singleton] at hb
          rcases hb with hb | rfl
          · exact h.logSorted batch hb
          · exact List.pairwise_singleton _ _
  · rw [markFieldAt_noop_ended pos ho]; exact h

theorem safeRevealed_revealMines (grid : List Cell) :
    safeRevealed (revealMines grid) = safeRevealed grid := by
  unfold safeRevealed revealMines
  rw [List.countP_map]
  apply countP_congr_eq
  intro a _
  cases hm : a.hasMine <;> simp [hm]

theorem minesInGrid_revealMines (grid : List Cell) :
    minesInGrid (revealMines grid) = minesInGrid grid := by
  unfold minesInGrid revealMines
  rw [List.countP_map]
  apply countP_congr_eq
  intro a _
  cases hm : a.hasMine <;> simp [hm]

theorem minesRevealedCount_revealMines (grid : List Cell) :
    minesRevealedCount (revealMines grid) = minesInGrid grid := by
  unfold minesRevealedCount minesInGrid revealMines
  rw [List.countP_map]
  apply countP_congr_eq
  intro a _
  cases hm : a.hasMine <;> simp [hm]

theorem getCell_revealMines (size : Coordinate) (grid : List Cell) (q : Coordinate) :
    getCell size (revealMines grid) q = (getCell size grid q).map
      fun c => if c.hasMine then { c with overlay := .revealed } else c := by
  unfold revealMines
  exact getCell_map _ size grid q

theorem mineAtB_revealMines (size : Coordinate) (grid : List Cell) (q : Coordinate) :
    mineAtB size (revealMines grid) q = mineAtB size grid q := by
  unfold mineAtB
  rw [getCell_revealMines]
  cases hg : getCell size grid q with
  | none => rfl
  | some c => cases hm : c.hasMine <;> simp [hm]

/-- Under a correct adjacency table, the flood-fill closure of a non-mine cell
never contains a mine: zero-adjacency cells have only mine-free neighbors. -/
theorem reachset_no_mine {b : Board} {pos : Coordinate} {c : Cell}
    (hadj : ∀ q cq, getCell b.size b.grid q = some cq →
      cq.adjacency = (neighbors b.size q).countP (mineAtB b.size b.grid))
    (hget : getCell b.size b.grid pos = some c) (hm : c.hasMine = false) :
    ∀ q, ReachSet b.size b.grid [pos] q → mineAtB b.size b.grid q = false := by
  intro q h
  induction h with
  | base hq =>
    have hq2 := List.mem_singleton.mp hq
    subst hq2
    unfold mineAtB
    rw [hget]
    exact hm
  | step _ hz hn _ =>
    rename_i p _ _ _
    rcases hiddenZeroB_true_iff.mp hz with ⟨cp, hgp, _, hzp⟩
    have hcount := hadj _ cp hgp
    rw [hzp] at hcount
    have hall := List.countP_eq_zero.mp hcount.symm
    simpa using hall _ hn

/-- After a safe cascading dig, still no revealed mine anywhere. -/
theorem minesRevealedCount_zero_after_loop {b : Board} {pos : Coordinate} {c : Cell}
    (hwf : WellFormed b) (ho : b.outcome = .undefined)
    (hget : getCell b.size b.grid pos = some c) (hm : c.hasMine = false) :
    minesRevealedCount (revealLoop b.size (9 * b.grid.length + 1) b.grid [pos] []).1 = 0 := by
  obtain ⟨ha, _, _, hd, _⟩ :=
    revealLoop_spec b.size (9 * b.grid.length + 1) b.grid [pos] [] (revealLoop_fuel_ok b pos)
  have hpre : minesRevealedCount b.grid = 0 := by
    rcases Nat.eq_zero_or_pos (minesRevealedCount b.grid) with h0 | h0
    · exact h0
    · have hdef := hwf.defeatIff.mpr h0
      rw [ho] at hdef
      cases hdef
  unfold minesRevealedCount at hpre ⊢
  rw [List.countP_eq_zero] at hpre ⊢
  intro a hmem
  rcases List.mem_iff_getElem?.mp hmem with ⟨i, hi⟩
  rcases forall2_getElem? ha i with ⟨h1, h2⟩ | ⟨c0, c1, h1, h2, hce⟩
  · rw [hi] at h2
    cases h2
  · rw [hi] at h2
    injection h2 with h2
    subst h2
    rcases hce with rfl | ⟨hh, rfl⟩
    · exact hpre _ (List.getElem?_mem h1)
    · have hilt : i < b.grid.length := by
        rcases List.getElem?_eq_some.mp h1 with ⟨hlt, _⟩
        exact hlt
      have hiarea : i < b.size.x * b.size.y := by
        rw [← hwf.gridLen]
        exact hilt
      have hinr : inRangeB b.size (indexToPos b.size i) = true :=
        inRangeB_indexToPos hwf.sizeX hiarea
      have hpi : posToIndex b.size (indexToPos b.size i) = i := posToIndex_indexToPos
      have hgq : getCell b.size b.grid (indexToPos b.size i) = some c0 := by
        rw [getCell_inRange hinr, hpi]
        exact h1
      have hhb : hiddenAtB b.size b.grid (indexToPos b.size i) = true :=
        hiddenAtB_true_iff.mpr ⟨c0, hgq, hh⟩
      have hhb2 : hiddenAtB b.size
          (revealLoop b.size (9 * b.grid.length + 1) b.grid [pos] []).1
          (indexToPos b.size i) = false := by
        unfold hiddenAtB
        rw [getCell_inRange hinr, hpi, hi]
        rfl
      have hreach := hd _ hhb hhb2
      have hnomine := reachset_no_mine hwf.adj hget hm _ hreach
      unfold mineAtB at hnomine
      rw [hgq] at hnomine
      simp only at hnomine
      simp [hnomine]

theorem wf_dig (b : Board) (pos : Coordinate) (h : WellFormed b) :
    WellFormed (b.digFieldAt pos) := by
  by_cases ho : b.outcome = .undefined
  · cases hget : getCell b.size b.grid pos with
    | none => rw [digFieldAt_noop_none hget]; exact h
    | some c =>
      by_cases hov : c.overlay = .hidden
      · cases hm : c.hasMine with
        | true =>
          rw [digFieldAt_mine_eq ho hget hov hm]
          refine ⟨h.sizeX, h.sizeY, ?_, h.countLB, h.countUB, ?_, ?_, ?_, ?_, ?_⟩
          · show (revealMines b.grid).length = b.size.x * b.size.y
            unfold revealMines
            rw [List.length_map]
            exact h.gridLen
          · show minesInGrid (revealMines b.grid) = b.mineCount
            rw [minesInGrid_revealMines]
            exact h.mines
          · show ∀ q cq, getCell b.size (revealMines b.grid) q = some cq →
              cq.adjacency = (neighbors b.size q).countP (mineAtB b.size (revealMines b.grid))
            intro q cq hgq
            rw [getCell_revealMines] at hgq
            rcases Option.map_eq_some'.mp hgq with ⟨c0, hg0, hc0⟩
            have hadj0 := h.adj q c0 hg0
            have hcqadj : cq.adjacency = c0.adjacency := by
              rw [← hc0]
              cases hmm : c0.hasMine <;> simp [hmm]
            rw [hcqadj, hadj0]
            apply countP_congr_eq
            intro r _
            exact (mineAtB_revealMines b.size b.grid r).symm
          · show Outcome.defeat = .victory ↔
              safeRevealed (revealMines b.grid) = b.size.x * b.size.y - b.mineCount
            have hne : ¬safeRevealed b.grid = b.size.x * b.size.y - b.mineCount := by
              intro hcontra
              have hvic := h.victoryIff.mpr hcontra
              rw [ho] at hvic
              cases hvic
            constructor
            · intro h2; cases h2
            · intro h2
              rw [safeRevealed_revealMines] at h2
              exact absurd h2 hne
          · show Outcome.defeat = .defeat ↔ 0 < minesRevealedCount (revealMines b.grid)
            constructor
            · intro _
              rw [minesRevealedCount_revealMines, h.mines]
              exact h.countLB
            · intro _
              rfl
          · show ∀ batch ∈ b.changeLog ++
              [(colMajorAll b.size).filter (unrevealedMineB b.size b.grid)],
                batch.Pairwise colLt
            intro batch hb
            simp only [List.mem_append, List.mem_singleton] at hb
            rcases hb with hb | rfl
            · exact h.logSorted batch hb
            · exact List.Pairwise.filter _ (colMajorAll_pairwise b.size)
        | false =>
          rw [digFieldAt_safe_eq ho hget hov hm]
          obtain ⟨ha, _, _, _, _⟩ := revealLoop_spec b.size (9 * b.grid.length + 1) b.grid
            [pos] [] (revealLoop_fuel_ok b pos)
          have hmz := minesRevealedCount_zero_after_loop h ho hget hm
          refine ⟨h.sizeX, h.sizeY, ?_, h.countLB, h.countUB, ?_, ?_, ?_, ?_, ?_⟩
          · show (revealLoop b.size (9 * b.grid.length + 1) b.grid [pos] []).1.length =
              b.size.x * b.size.y
            rw [ha.length_eq]
            exact h.gridLen
          · show minesInGrid (revealLoop b.size (9 * b.grid.length + 1) b.grid [pos] []).1 =
              b.mineCount
            unfold minesInGrid
            rw [ha.countP_eq (fun x => x.hasMine) (fun x => rfl)]
            exact h.mines
          · show ∀ q cq,
              getCell b.size (revealLoop b.size (9 * b.grid.length + 1) b.grid [pos] []).1 q =
                some cq →
              cq.adjacency = (neighbors b.size q).countP
                (mineAtB b.size (revealLoop b.size (9 * b.grid.length + 1) b.grid [pos] []).1)
            intro q cq hgq
            rcases ha.getCell_rel b.size q with ⟨_, h2⟩ | ⟨c0, c1, h1, h2, hce⟩
            · rw [hgq] at h2
              cases h2
            · rw [hgq] at h2
              injection h2 with h2
              subst h2
              rw [hce.ground.2, h.adj q c0 h1]
              apply countP_congr_eq
              intro r _
              exact (ha.mineAtB_eq b.size r).symm
          · show (if safeRevealed (revealLoop b.size (9 * b.grid.length + 1) b.grid [pos] []).1 =
                b.size.x * b.size.y - b.mineCount then Outcome.victory else Outcome.undefined) =
              .victory ↔
              safeRevealed (revealLoop b.size (9 * b.grid.length + 1) b.grid [pos] []).1 =
                b.size.x * b.size.y - b.mineCount
            by_cases hsr : safeRevealed
                (revealLoop b.size (9 * b.grid.length + 1) b.grid [pos] []).1 =
                b.size.x * b.size.y - b.mineCount
            · rw [if_pos hsr]
              exact ⟨fun _ => hsr, fun _ => rfl⟩
            · rw [if_neg hsr]
              constructor
              · intro h2; cases h2
              · intro h2; exact absurd h2 hsr
          · show (if safeRevealed (revealLoop b.size (9 * b.grid.length + 1) b.grid [pos] []).1 =
                b.size.x * b.size.y - b.mineCount then Outcome.victory else Outcome.undefined) =
              .defeat ↔
              0 < minesRevealedCount (revealLoop b.size (9 * b.grid.length + 1) b.grid [pos] []).1
            constructor
            · intro h2
              by_cases hsr : safeRevealed
                  (revealLoop b.size (9 * b.grid.length + 1) b.grid [pos] []).1 =
                  b.size.x * b.size.y - b.mineCount
              · rw [if_pos hsr] at h2
                cases h2
              · rw [if_neg hsr] at h2
                cases h2
            · intro h2
              rw [hmz] at h2
              omega
          · show ∀ batch ∈ b.changeLog ++ [(colMajorAll b.size).filter fun q =>
              (revealLoop b.size (9 * b.grid.length + 1) b.grid [pos] []).2.contains q],
                batch.Pairwise colLt
            intro batch hb
            simp only [List.mem_append, List.mem_singleton] at hb
            rcases hb with hb | rfl
            · exact h.logSorted batch hb
            · exact List.Pairwise.filter _ (colMajorAll_pairwise b.size)
      · rw [digFieldAt_noop_not_hidden hget hov]; exact h
  · rw [digFieldAt_noop_ended pos ho]; exact h

theorem digPerimeterAt_noop_ended {b : Board} (pos : Coordinate)
    (ho : ¬b.outcome = .undefined) : b.digPerimeterAt pos = b := by
  unfold Board.digPerimeterAt
  rw [if_neg ho]

theorem digPerimeterAt_noop_none {b : Board} {pos : Coordinate}
    (hg : getCell b.size b.grid pos = none) : b.digPerimeterAt pos = b := by
  unfold Board.digPerimeterAt
  by_cases ho : b.outcome = .undefined
  · rw [if_pos ho, hg]
  · rw [if_neg ho]

theorem digPerimeterAt_noop_guard {b : Board} {pos : Coordinate} {c : Cell}
    (hget : getCell b.size b.grid pos = some c)
    (hguard : ¬(c.overlay = .revealed ∧ c.adjacency ≠ 0)) : b.digPerimeterAt pos = b := by
  unfold Board.digPerimeterAt
  by_cases ho : b.outcome = .undefined
  · rw [if_pos ho, hget]
    simp [hguard]
  · rw [if_neg ho]

theorem digPerimeterAt_noop_flags {b : Board} {pos : Coordinate} {c : Cell}
    (hget : getCell b.size b.grid pos = some c)
    (hcnt : ¬(neighbors b.size pos).countP (flaggedAtB b.size b.grid) = c.adjacency) :
    b.digPerimeterAt pos = b := by
  unfold Board.digPerimeterAt
  by_cases ho : b.outcome = .undefined
  · rw [if_pos ho, hget]
    by_cases hguard : c.overlay = .revealed ∧ c.adjacency ≠ 0
    · simp only
      rw [if_pos hguard, if_neg hcnt]
    · simp [hguard]
  · rw [if_neg ho]

theorem digPerimeterAt_fire_eq {b : Board} {pos : Coordinate} {c : Cell}
    (ho : b.outcome = .undefined) (hget : getCell b.size b.grid pos = some c)
    (hov : c.overlay = .revealed) (hadj : c.adjacency ≠ 0)
    (hcnt : (neighbors b.size pos).countP (flaggedAtB b.size b.grid) = c.adjacency) :
    b.digPerimeterAt pos = (neighbors b.size pos).foldl
      (fun bb q => if hiddenAtB bb.size bb.grid q then bb.digFieldAt q else bb) b := by
  unfold Board.digPerimeterAt
  rw [if_pos ho, hget]
  simp only
  rw [if_pos ⟨hov, hadj⟩, if_pos hcnt]

theorem wf_chordfold (l : List Coordinate) (bb : Board) (hbb : WellFormed bb) :
    WellFormed (l.foldl
      (fun bb q => if hiddenAtB bb.size bb.grid q then bb.digFieldAt q else bb) bb) := by
  induction l generalizing bb with
  | nil => exact hbb
  | cons q rest ih =>
    simp only [List.foldl_cons]
    apply ih
    by_cases hq : hiddenAtB bb.size bb.grid q = true
    · rw [if_pos hq]
      exact wf_dig bb q hbb
    · rw [if_neg hq]
      exact hbb

theorem wf_chord (b : Board) (pos : Coordinate) (h : WellFormed b) :
    WellFormed (b.digPerimeterAt pos) := by
  by_cases ho : b.outcome = .undefined
  · cases hget : getCell b.size b.grid pos with
    | none => rw [digPerimeterAt_noop_none hget]; exact h
    | some c =>
      by_cases hguard : c.overlay = .revealed ∧ c.adjacency ≠ 0
      · by_cases hcnt : (neighbors b.size pos).countP (flaggedAtB b.size b.grid) = c.adjacency
        · rw [digPerimeterAt_fire_eq ho hget hguard.1 hguard.2 hcnt]
          exact wf_chordfold _ b h
        · rw [digPerimeterAt_noop_flags hget hcnt]
          exact h
      · rw [digPerimeterAt_noop_guard hget hguard]
        exact h
  · rw [digPerimeterAt_noop_ended pos ho]
    exact h

theorem wf_resize (b : Board) (sx sy count : Int) (mineAt : Coordinate → Bool)
    (h : WellFormed b)
    (hplace : 1 ≤ sx → 1 ≤ sy → 1 ≤ count → count ≤ sx * sy - 1 →
      minesInGrid (buildGrid ⟨sx.toNat, sy.toNat⟩ mineAt) = count.toNat) :
    WellFormed (b.resize sx sy count mineAt).1 := by
  unfold Board.resize
  by_cases h1 : sx < 1 ∨ sy < 1
  · rw [if_pos h1]
    exact h
  · rw [if_neg h1]
    by_cases h2 : count < 1 ∨ sx * sy - 1 < count
    · rw [if_pos h2]
      exact h
    · rw [if_neg h2]
      push_neg at h1 h2
      have hsx : (1 : Int) ≤ sx := h1.1
      have hsy : (1 : Int) ≤ sy := h1.2
      have hc1 : (1 : Int) ≤ count := h2.1
      have hc2 : count ≤ sx * sy - 1 := h2.2
      have hsxn : ((sx.toNat : Int)) = sx := Int.toNat_of_nonneg (by omega)
      have hsyn : ((sy.toNat : Int)) = sy := Int.toNat_of_nonneg (by omega)
      have hmul : ((sx.toNat * sy.toNat : Nat) : Int) = sx * sy := by
        push_cast
        rw [hsxn, hsyn]
      refine wf_build ?_ ?_ ?_ ?_ (hplace hsx hsy hc1 hc2)
      · show 1 ≤ sx.toNat
        omega
      · show 1 ≤ sy.toNat
        omega
      · show 1 ≤ count.toNat
        omega
      · show count.toNat ≤ sx.toNat * sy.toNat - 1
        omega

theorem reachable_wf {b : Board} (h : Reachable b) : WellFormed b := by
  induction h with
  | build size count mineAt hx hy hc1 hc2 hmines => exact wf_build hx hy hc1 hc2 hmines
  | dig b pos _ ih => exact wf_dig b pos ih
  | mark b pos _ ih => exact wf_mark b pos ih
  | chord b pos _ ih => exact wf_chord b pos ih
  | rebuild b mineAt _ hmines ih =>
    exact wf_build ih.sizeX ih.sizeY ih.countLB ih.countUB hmines
  | resize b sx sy count mineAt _ hplace ih => exact wf_resize b sx sy count mineAt ih hplace

end WellFormedLemmas

section MoreOpLemmas

theorem markFieldAt_ground (b : Board) (pos q : Coordinate) :
    groundAt (b.markFieldAt pos) q = groundAt b q := by
  by_cases ho : b.outcome = .undefined
  · cases hget : getCell b.size b.grid pos with
    | none => rw [markFieldAt_noop_none hget]
    | some c =>
      by_cases hov : c.overlay = .revealed
      · rw [markFieldAt_noop_revealed hget hov]
      · rw [markFieldAt_eq ho hget hov]
        unfold groundAt
        show (getCell b.size (setCell b.size b.grid pos
          { c with overlay := c.overlay.next }) q).map _ = _
        by_cases hq : q = pos
        · subst hq
          rw [getCell_setCell_self hget, hget]
          rfl
        · rw [getCell_setCell_ne (getCell_some_elim hget).1 hq]
  · rw [markFieldAt_noop_ended pos ho]

theorem digPerimeterAt_ground (b : Board) (pos q : Coordinate) :
    groundAt (b.digPerimeterAt pos) q = groundAt b q := by
  have hfold : ∀ (l : List Coordinate) (bb : Board),
      groundAt (l.foldl
        (fun bb q2 => if hiddenAtB bb.size bb.grid q2 then bb.digFieldAt q2 else bb) bb) q =
        groundAt bb q := by
    intro l
    induction l with
    | nil => intro bb; rfl
    | cons r rest ih =>
      intro bb
      simp only [List.foldl_cons]
      rw [ih]
      by_cases hr : hiddenAtB bb.size bb.grid r = true
      · rw [if_pos hr]
        exact digFieldAt_ground bb r q
      · rw [if_neg hr]
  by_cases ho : b.outcome = .undefined
  · cases hget : getCell b.size b.grid pos with
    | none => rw [digPerimeterAt_noop_none hget]
    | some c =>
      by_cases hguard : c.overlay = .revealed ∧ c.adjacency ≠ 0
      · by_cases hcnt : (neighbors b.size pos).countP (flaggedAtB b.size b.grid) = c.adjacency
        · rw [digPerimeterAt_fire_eq ho hget hguard.1 hguard.2 hcnt]
          exact hfold _ b
        · rw [digPerimeterAt_noop_flags hget hcnt]
      · rw [digPerimeterAt_noop_guard hget hguard]
  · rw [digPerimeterAt_noop_ended pos ho]

theorem chordstep_eq_dig :
    (fun (bb : Board) (q : Coordinate) =>
      if hiddenAtB bb.size bb.grid q then bb.digFieldAt q else bb) = Board.digFieldAt := by
  funext bb q
  by_cases hq : hiddenAtB bb.size bb.grid q = true
  · rw [if_pos hq]
  · rw [if_neg hq]
    exact (digFieldAt_noop_of_not_hiddenAtB (by simpa using hq)).symm

theorem foldl_dig_filter (b : Board) :
    ∀ (l : List Coordinate) (bb : Board), bb.size = b.size →
      (∀ q, hiddenAtB b.size b.grid q = false → hiddenAtB b.size bb.grid q = false) →
      l.foldl Board.digFieldAt bb =
        (l.filter (hiddenAtB b.size b.grid)).foldl Board.digFieldAt bb := by
  intro l
  induction l with
  | nil => intro bb _ _; rfl
  | cons q rest ih =>
    intro bb hsz hinv
    by_cases hq : hiddenAtB b.size b.grid q = true
    · rw [List.filter_cons_of_pos hq]
      simp only [List.foldl_cons]
      apply ih
      · rw [(digFieldAt_size bb q).1, hsz]
      · intro r hr
        have hbr := hinv r hr
        have : hiddenAtB bb.size bb.grid r = false := by rw [hsz]; exact hbr
        have hmono := digFieldAt_not_hidden_mono q this
        rw [hsz] at hmono
        exact hmono
    · rw [List.filter_cons_of_neg hq]
      have hbq : hiddenAtB bb.size bb.grid q = false := by
        rw [hsz]
        exact hinv q (by simpa using hq)
      simp only [List.foldl_cons]
      rw [digFieldAt_noop_of_not_hiddenAtB hbq]
      exact ih bb hsz hinv

theorem contains_iff_mem {l : List Coordinate} {a : Coordinate} :
    l.contains a = true ↔ a ∈ l := List.elem_iff

end MoreOpLemmas

section Claims

theorem overlay_next_cycle {o : Overlay} (h : ¬o = .revealed) :
    o.next.next.next = o := by
  cases o <;> simp [Overlay.next] at *

/-- C3 counterexample: on a fresh 4x1 board the cell (0,0) starts Hidden
(state -1); after FOUR markFieldAt calls it is Flagged (state -2), not back at
its starting overlay — the cycle has period three, so four calls do not return
the cell to its start as the claim states. -/
theorem claim3_counterexample :
    (Board.build ⟨4, 1⟩ 1 (fun p => p.x == 3)).outcome = .undefined ∧
    (Board.build ⟨4, 1⟩ 1 (fun p => p.x == 3)).getStateAt ⟨0, 0⟩ = some (-1) ∧
    (((((Board.build ⟨4, 1⟩ 1 (fun p => p.x == 3)).markFieldAt ⟨0, 0⟩).markFieldAt
      ⟨0, 0⟩).markFieldAt ⟨0, 0⟩).markFieldAt ⟨0, 0⟩).getStateAt ⟨0, 0⟩ = some (-2) := by
  refine ⟨rfl, rfl, ?_⟩
  decide

/-- C3 (amended): while the game has not ended, markFieldAt on a non-Revealed
cell steps the overlay along the cycle Hidden → Flagged → Questioned → Hidden
and records the single coordinate, so THREE calls (not four) return the cell
to its starting overlay; markFieldAt on a Revealed cell, or after the game has
ended, is a no-op. -/
theorem claim3_mark_cycle (b : Board) (pos : Coordinate) (c : Cell)
    (ho : b.outcome = .undefined) (hget : getCell b.size b.grid pos = some c) :
    (¬c.overlay = .revealed →
      getCell b.size (b.markFieldAt pos).grid pos =
        some { c with overlay := c.overlay.next } ∧
      (b.markFieldAt pos).changeLog = b.changeLog ++ [[pos]] ∧
      getCell b.size (((b.markFieldAt pos).markFieldAt pos).markFieldAt pos).grid pos =
        some c) ∧
    (c.overlay = .revealed → b.markFieldAt pos = b) ∧
    (∀ b2 : Board, ¬b2.outcome = .undefined → b2.markFieldAt pos = b2) := by
  refine ⟨?_, ?_, ?_⟩
  · intro hov
    have h1 := markFieldAt_eq ho hget hov
    have hg1 : getCell b.size (b.markFieldAt pos).grid pos =
        some { c with overlay := c.overlay.next } := by
      rw [h1]
      exact getCell_setCell_self hget _
    refine ⟨hg1, by rw [h1], ?_⟩
    have hsz1 : (b.markFieldAt pos).size = b.size := (markFieldAt_size b pos).1
    have ho1 : (b.markFieldAt pos).outcome = .undefined := by
      rw [(markFieldAt_size b pos).2.2]
      exact ho
    have hget1 : getCell (b.markFieldAt pos).size (b.markFieldAt pos).grid pos =
        some { c with overlay := c.overlay.next } := by
      rw [hsz1]
      exact hg1
    have hov1 : ¬({ c with overlay := c.overlay.next } : Cell).overlay = .revealed :=
      overlay_next_ne_revealed hov
    have h2 := markFieldAt_eq ho1 hget1 hov1
    have hg2 : getCell b.size ((b.markFieldAt pos).markFieldAt pos).grid pos =
        some { c with overlay := c.overlay.next.next } := by
      rw [h2, ← hsz1]
      exact getCell_setCell_self hget1 _
    have hsz2 : ((b.markFieldAt pos).markFieldAt pos).size = b.size := by
      rw [(markFieldAt_size (b.markFieldAt pos) pos).1]
      exact hsz1
    have ho2 : ((b.markFieldAt pos).markFieldAt pos).outcome = .undefined := by
      rw [(markFieldAt_size (b.markFieldAt pos) pos).2.2]
      exact ho1
    have hget2 : getCell ((b.markFieldAt pos).markFieldAt pos).size
        ((b.markFieldAt pos).markFieldAt pos).grid pos =
        some { c with overlay := c.overlay.next.next } := by
      rw [hsz2]
      exact hg2
    have hov2 : ¬({ c with overlay := c.overlay.next.next } : Cell).overlay = .revealed :=
      overlay_next_ne_revealed (overlay_next_ne_revealed hov)
    have h3 := markFieldAt_eq ho2 hget2 hov2
    have hg3 : getCell b.size
        ((((b.markFieldAt pos).markFieldAt pos)).markFieldAt pos).grid pos =
        some { c with overlay := c.overlay.next.next.next } := by
      rw [h3, ← hsz2]
      exact getCell_setCell_self hget2 _
    rw [hg3, overlay_next_cycle hov]
  · intro hov
    exact markFieldAt_noop_revealed hget hov
  · intro b2 ho2
    exact markFieldAt_noop_ended pos ho2

/-- C3 witness: the amended theorem applied to the fresh 4x1 board at (0,0). -/
theorem claim3_witness :
    (Board.build ⟨4, 1⟩ 1 (fun p => p.x == 3)).outcome = .undefined ∧
    getCell (Board.build ⟨4, 1⟩ 1 (fun p => p.x == 3)).size
      (Board.build ⟨4, 1⟩ 1 (fun p => p.x == 3)).grid ⟨0, 0⟩ =
        some ⟨false, .hidden, 0⟩ ∧
    getCell (Board.build ⟨4, 1⟩ 1 (fun p => p.x == 3)).size
      ((((Board.build ⟨4, 1⟩ 1 (fun p => p.x == 3)).markFieldAt ⟨0, 0⟩).markFieldAt
        ⟨0, 0⟩).markFieldAt ⟨0, 0⟩).grid ⟨0, 0⟩ = some ⟨false, .hidden, 0⟩ := by
  refine ⟨rfl, by decide, ?_⟩
  have h := claim3_mark_cycle (Board.build ⟨4, 1⟩ 1 (fun p => p.x == 3)) ⟨0, 0⟩
    ⟨false, .hidden, 0⟩ rfl (by decide)
  exact (h.1 (by decide)).2.2

/-- C9: resize with an invalid size (a non-positive component) or an invalid
count (outside 1 ≤ count ≤ area - 1) reports a domain error and returns the
board unchanged (same size, count, grid, outcome and change log); with valid
arguments it produces exactly the board a rebuild with the new dimensions
produces. -/
theorem claim9_resize_validation (b : Board) (sx sy count : Int)
    (mineAt : Coordinate → Bool) :
    ((sx < 1 ∨ sy < 1 ∨ count < 1 ∨ sx * sy - 1 < count) →
      b.resize sx sy count mineAt = (b, false)) ∧
    (1 ≤ sx → 1 ≤ sy → 1 ≤ count → count ≤ sx * sy - 1 →
      b.resize sx sy count mineAt =
        (Board.build ⟨sx.toNat, sy.toNat⟩ count.toNat mineAt, true)) ∧
    (∀ g : List Cell, ∀ oc : Outcome, ∀ lg : List (List Coordinate),
      Board.build ⟨sx.toNat, sy.toNat⟩ count.toNat mineAt =
        Board.rebuild ⟨⟨sx.toNat, sy.toNat⟩, count.toNat, g, oc, lg⟩ mineAt) := by
  refine ⟨?_, ?_, fun g oc lg => rfl⟩
  · intro h
    unfold Board.resize
    by_cases hA : sx < 1 ∨ sy < 1
    · rw [if_pos hA]
    · rw [if_neg hA]
      have hB : count < 1 ∨ sx * sy - 1 < count := by
        rcases h with h | h | h | h
        · exact absurd (Or.inl h) hA
        · exact absurd (Or.inr h) hA
        · exact Or.inl h
        · exact Or.inr h
      rw [if_pos hB]
  · intro h1 h2 h3 h4
    unfold Board.resize
    rw [if_neg (by omega), if_neg (by omega)]

/-- C9 witness: a 4x1 board rejects a resize to width 0 unchanged, and accepts
a resize to 2x2 with 3 mines as a rebuild at the new dimensions. -/
theorem claim9_witness :
    (Board.build ⟨4, 1⟩ 1 (fun p => p.x == 3)).resize 0 2 1 (fun p => p.x == 0) =
      (Board.build ⟨4, 1⟩ 1 (fun p => p.x == 3), false) ∧
    (Board.build ⟨4, 1⟩ 1 (fun p => p.x == 3)).resize 2 2 3 (fun p => p.x == 0) =
      (Board.build ⟨2, 2⟩ 3 (fun p => p.x == 0), true) := by
  constructor
  · exact (claim9_resize_validation _ 0 2 1 _).1 (by omega)
  · exact (claim9_resize_validation _ 2 2 3 _).2.1 (by omega) (by omega) (by omega) (by omega)

/-- C10: on a running board, a single click issues markFieldAt then
digPerimeterAt at the same position, and at most one of the two can mutate the
board: if the cell is not Revealed the mark fires but the chord's guard (cell
Revealed) then fails; if the cell is Revealed the mark is a no-op. -/
theorem claim10_click_disjoint (b : Board) (pos : Coordinate)
    (ho : b.outcome = .undefined) (_hr : inRangeB b.size pos = true) :
    (b.markFieldAt pos).digPerimeterAt pos = b.markFieldAt pos ∨ b.markFieldAt pos = b := by
  cases hget : getCell b.size b.grid pos with
  | none => exact Or.inr (markFieldAt_noop_none hget)
  | some c =>
    by_cases hov : c.overlay = .revealed
    · exact Or.inr (markFieldAt_noop_revealed hget hov)
    · left
      have hg1 : getCell (b.markFieldAt pos).size (b.markFieldAt pos).grid pos =
          some { c with overlay := c.overlay.next } := by
        rw [(markFieldAt_size b pos).1, markFieldAt_eq ho hget hov]
        exact getCell_setCell_self hget _
      apply digPerimeterAt_noop_guard hg1
      intro hcon
      exact overlay_next_ne_revealed hov hcon.1

/-- C10 witness: the fresh 4x1 board at the hidden cell (0,0). -/
theorem claim10_witness :
    (Board.build ⟨4, 1⟩ 1 (fun p => p.x == 3)).outcome = .undefined ∧
    inRangeB (Board.build ⟨4, 1⟩ 1 (fun p => p.x == 3)).size ⟨0, 0⟩ = true ∧
    (((Board.build ⟨4, 1⟩ 1 (fun p => p.x == 3)).markFieldAt ⟨0, 0⟩).digPerimeterAt ⟨0, 0⟩ =
        (Board.build ⟨4, 1⟩ 1 (fun p => p.x == 3)).markFieldAt ⟨0, 0⟩ ∨
      (Board.build ⟨4, 1⟩ 1 (fun p => p.x == 3)).markFieldAt ⟨0, 0⟩ =
        Board.build ⟨4, 1⟩ 1 (fun p => p.x == 3)) :=
  ⟨rfl, rfl, claim10_click_disjoint _ ⟨0, 0⟩ rfl rfl⟩

theorem foldl_dig_noop_ended {b : Board} (ho : ¬b.outcome = .undefined)
    (l : List Coordinate) : l.foldl Board.digFieldAt b = b := by
  induction l with
  | nil => rfl
  | cons q rest ih =>
    simp only [List.foldl_cons]
    rw [digFieldAt_noop_ended q ho]
    exact ih

/-- C5: digPerimeterAt is a no-op unless the target cell is Revealed with
positive adjacency and its flagged-neighbor count equals its adjacency; when
those conditions hold, the result equals folding digFieldAt over exactly the
neighbors whose overlay is Hidden. -/
theorem claim5_chord_equivalence (b : Board) (pos : Coordinate) :
    ((∀ c, getCell b.size b.grid pos = some c →
      ¬(c.overlay = .revealed ∧ c.adjacency ≠ 0 ∧
        (neighbors b.size pos).countP (flaggedAtB b.size b.grid) = c.adjacency)) →
      b.digPerimeterAt pos = b) ∧
    (∀ c, getCell b.size b.grid pos = some c →
      c.overlay = .revealed → c.adjacency ≠ 0 →
      (neighbors b.size pos).countP (flaggedAtB b.size b.grid) = c.adjacency →
      b.digPerimeterAt pos =
        ((neighbors b.size pos).filter (hiddenAtB b.size b.grid)).foldl Board.digFieldAt b) := by
  constructor
  · intro hno
    cases hget : getCell b.size b.grid pos with
    | none => exact digPerimeterAt_noop_none hget
    | some c =>
      have hnoc := hno c hget
      by_cases hguard : c.overlay = .revealed ∧ c.adjacency ≠ 0
      · by_cases hcnt : (neighbors b.size pos).countP (flaggedAtB b.size b.grid) = c.adjacency
        · exact absurd ⟨hguard.1, hguard.2, hcnt⟩ hnoc
        · exact digPerimeterAt_noop_flags hget hcnt
      · exact digPerimeterAt_noop_guard hget hguard
  · intro c hget hov hadj hcnt
    by_cases ho : b.outcome = .undefined
    · rw [digPerimeterAt_fire_eq ho hget hov hadj hcnt, chordstep_eq_dig]
      exact foldl_dig_filter b (neighbors b.size pos) b rfl (fun q hq => hq)
    · rw [digPerimeterAt_noop_ended pos ho, foldl_dig_noop_ended ho]

/-- C5 witness: a 2x2 board with one mine, the safe corner revealed and the
mine flagged — the chord fires and equals the dig fold; on the fresh board the
chord is a no-op. -/
theorem claim5_witness :
    getCell (Board.build ⟨2, 2⟩ 1 (fun p => p.x == 0 && p.y == 0)).size
      (Board.build ⟨2, 2⟩ 1 (fun p => p.x == 0 && p.y == 0)).grid ⟨1, 1⟩ =
        some ⟨false, .hidden, 1⟩ ∧
    (Board.build ⟨2, 2⟩ 1 (fun p => p.x == 0 && p.y == 0)).digPerimeterAt ⟨1, 1⟩ =
      Board.build ⟨2, 2⟩ 1 (fun p => p.x == 0 && p.y == 0) := by
  refine ⟨by decide, ?_⟩
  exact (claim5_chord_equivalence (Board.build ⟨2, 2⟩ 1 (fun p => p.x == 0 && p.y == 0))
    ⟨1, 1⟩).1 (by decide)

/-- C6: digFieldAt on a Hidden mine while the game is running sets
outcome = Defeat, turns every mine cell's overlay to Revealed so that its
queried state is peakDanger, and appends exactly the newly revealed cells
(the not-yet-revealed mines) as one batch. -/
theorem claim6_mine_defeat (b : Board) (pos : Coordinate) (c : Cell)
    (ho : b.outcome = .undefined) (hget : getCell b.size b.grid pos = some c)
    (hov : c.overlay = .hidden) (hm : c.hasMine = true) :
    (b.digFieldAt pos).outcome = .defeat ∧
    (∀ q c0, getCell b.size b.grid q = some c0 → c0.hasMine = true →
      getCell b.size (b.digFieldAt pos).grid q = some { c0 with overlay := .revealed } ∧
      (b.digFieldAt pos).getStateAt q = some (peakDanger : Int)) ∧
    (∃ batch, (b.digFieldAt pos).changeLog = b.changeLog ++ [batch] ∧
      ∀ q, q ∈ batch ↔ unrevealedMineB b.size b.grid q = true) := by
  rw [digFieldAt_mine_eq ho hget hov hm]
  refine ⟨rfl, ?_, ?_⟩
  · intro q c0 hg0 hm0
    have hcell : getCell b.size (revealMines b.grid) q =
        some { c0 with overlay := .revealed } := by
      rw [getCell_revealMines, hg0]
      simp [hm0]
    refine ⟨hcell, ?_⟩
    show (getCell b.size (revealMines b.grid) q).map _ = _
    rw [hcell]
    simp [hm0, peakDanger]
  · refine ⟨(colMajorAll b.size).filter (unrevealedMineB b.size b.grid), rfl, ?_⟩
    intro q
    rw [List.mem_filter, mem_colMajorAll]
    constructor
    · exact fun h => h.2
    · intro h
      refine ⟨?_, h⟩
      unfold unrevealedMineB at h
      cases hg : getCell b.size b.grid q with
      | none => rw [hg] at h; cases h
      | some c1 => exact (getCell_some_elim hg).1

/-- C6 witness: digging the mine at (0,0) of a fresh 2x1 board with one mine. -/
theorem claim6_witness :
    (Board.build ⟨2, 1⟩ 1 (fun p => p.x == 0)).outcome = .undefined ∧
    getCell (Board.build ⟨2, 1⟩ 1 (fun p => p.x == 0)).size
      (Board.build ⟨2, 1⟩ 1 (fun p => p.x == 0)).grid ⟨0, 0⟩ = some ⟨true, .hidden, 0⟩ ∧
    ((Board.build ⟨2, 1⟩ 1 (fun p => p.x == 0)).digFieldAt ⟨0, 0⟩).outcome = .defeat ∧
    ((Board.build ⟨2, 1⟩ 1 (fun p => p.x == 0)).digFieldAt ⟨0, 0⟩).getStateAt ⟨0, 0⟩ =
      some (peakDanger : Int) := by
  refine ⟨rfl, by decide, ?_, ?_⟩
  · exact (claim6_mine_defeat _ ⟨0, 0⟩ ⟨true, .hidden, 0⟩ rfl (by decide) rfl rfl).1
  · exact ((claim6_mine_defeat _ ⟨0, 0⟩ ⟨true, .hidden, 0⟩ rfl (by decide) rfl
      rfl).2.1 ⟨0, 0⟩ ⟨true, .hidden, 0⟩ (by decide) rfl).2

/-- C7: on every reachable board, the outcome is Victory exactly when the
number of revealed non-mine cells equals area minus mine count — revealing
every safe cell is the only path to victory. -/
theorem claim7_victory_iff (b : Board) (h : Reachable b) :
    b.outcome = .victory ↔
      safeRevealed b.grid = b.size.x * b.size.y - b.mineCount :=
  (reachable_wf h).victoryIff

/-- C7 witness: the fresh 4x1 board after digging its zero-adjacency corner —
the cascade reveals all three safe cells and the equivalence instantiates to a
victory state. -/
theorem claim7_witness :
    ((Board.build ⟨4, 1⟩ 1 (fun p => p.x == 3)).digFieldAt ⟨0, 0⟩).outcome = .victory ↔
      safeRevealed ((Board.build ⟨4, 1⟩ 1 (fun p => p.x == 3)).digFieldAt ⟨0, 0⟩).grid =
        ((Board.build ⟨4, 1⟩ 1 (fun p => p.x == 3)).digFieldAt ⟨0, 0⟩).size.x *
          ((Board.build ⟨4, 1⟩ 1 (fun p => p.x == 3)).digFieldAt ⟨0, 0⟩).size.y -
          ((Board.build ⟨4, 1⟩ 1 (fun p => p.x == 3)).digFieldAt ⟨0, 0⟩).mineCount :=
  claim7_victory_iff _ (Reachable.dig _ ⟨0, 0⟩
    (Reachable.build ⟨4, 1⟩ 1 (fun p => p.x == 3) (by decide) (by decide) (by decide)
      (by decide) (by decide)))

/-- C2 counterexample: on the valid 3x3 board with 8 mines (all cells but the
center), the center is a non-mine cell whose adjacency immediately after mine
placement is 8 = peakDanger, outside the claimed range [0, peakDanger-1]. -/
theorem claim2_counterexample :
    1 ≤ (⟨3, 3⟩ : Coordinate).x ∧ 1 ≤ (⟨3, 3⟩ : Coordinate).y ∧
    (1 : Nat) ≤ 8 ∧ (8 : Nat) ≤ 3 * 3 - 1 ∧
    minesInGrid (buildGrid ⟨3, 3⟩ (fun p => !(p.x == 1 && p.y == 1))) = 8 ∧
    getCell ⟨3, 3⟩ (buildGrid ⟨3, 3⟩ (fun p => !(p.x == 1 && p.y == 1))) ⟨1, 1⟩ =
      some ⟨false, .hidden, 8⟩ ∧
    ¬(8 : Nat) ≤ peakDanger - 1 := by
  decide

/-- C2 (amended): immediately after mine placement every non-mine cell's
adjacency equals the exact count of its up-to-8 in-bounds neighbors that carry
a mine, and lies in [0, peakDanger] — the upper bound peakDanger (not
peakDanger - 1) is attained when all 8 neighbors are mines; rebuild and a
valid resize produce exactly such a freshly built grid, and no later
operation (dig, mark, chord) ever changes any cell's mine flag or adjacency. -/
theorem claim2_adjacency_invariant (size : Coordinate) (mineAt : Coordinate → Bool)
    (pos : Coordinate) (c : Cell)
    (hget : getCell size (buildGrid size mineAt) pos = some c) (_hm : c.hasMine = false) :
    c.adjacency = (neighbors size pos).countP (mineAtB size (buildGrid size mineAt)) ∧
    c.adjacency ≤ peakDanger ∧
    (∀ (b : Board) (p2 q : Coordinate), groundAt (b.digFieldAt p2) q = groundAt b q) ∧
    (∀ (b : Board) (p2 q : Coordinate), groundAt (b.markFieldAt p2) q = groundAt b q) ∧
    (∀ (b : Board) (p2 q : Coordinate), groundAt (b.digPerimeterAt p2) q = groundAt b q) ∧
    (∀ (b : Board) (m2 : Coordinate → Bool), (b.rebuild m2).grid = buildGrid b.size m2) ∧
    (∀ (b : Board) (sx sy cnt : Int) (m2 : Coordinate → Bool),
      1 ≤ sx → 1 ≤ sy → 1 ≤ cnt → cnt ≤ sx * sy - 1 →
      (b.resize sx sy cnt m2).1.grid = buildGrid ⟨sx.toNat, sy.toNat⟩ m2) := by
  refine ⟨?_, ?_, digFieldAt_ground, markFieldAt_ground, digPerimeterAt_ground,
    fun b m2 => rfl, ?_⟩
  · rw [getCell_buildGrid_elim hget]
    unfold countMineNeighbors
    apply countP_congr_eq
    intro q hq
    exact (mineAtB_buildGrid (neighbors_inRange hq)).symm
  · rw [getCell_buildGrid_elim hget]
    show countMineNeighbors size mineAt pos ≤ peakDanger
    unfold countMineNeighbors peakDanger
    calc (neighbors size pos).countP mineAt ≤ (neighbors size pos).length :=
      List.countP_le_length _
    _ ≤ 8 := neighbors_length_le size pos
  · intro b sx sy cnt m2 h1 h2 h3 h4
    unfold Board.resize
    rw [if_neg (by omega), if_neg (by omega)]
    rfl

/-- C2 witness: the amended theorem at the safe cell (2,0) of the 4x1 board,
whose adjacency is 1. -/
theorem claim2_witness :
    getCell ⟨4, 1⟩ (buildGrid ⟨4, 1⟩ (fun p => p.x == 3)) ⟨2, 0⟩ =
      some ⟨false, .hidden, 1⟩ ∧
    (⟨false, .hidden, 1⟩ : Cell).hasMine = false ∧
    (1 : Nat) = (neighbors ⟨4, 1⟩ ⟨2, 0⟩).countP
      (mineAtB ⟨4, 1⟩ (buildGrid ⟨4, 1⟩ (fun p => p.x == 3))) ∧
    (1 : Nat) ≤ peakDanger := by
  refine ⟨by decide, rfl, ?_, ?_⟩
  · exact (claim2_adjacency_invariant ⟨4, 1⟩ (fun p => p.x == 3) ⟨2, 0⟩
      ⟨false, .hidden, 1⟩ (by decide) rfl).1
  · exact (claim2_adjacency_invariant ⟨4, 1⟩ (fun p => p.x == 3) ⟨2, 0⟩
      ⟨false, .hidden, 1⟩ (by decide) rfl).2.1

/-- C1 counterexample: digging the safe center of the 3x3 board with 8 mines
is a reachable state where getStateAt returns peakDanger for a Revealed
non-mine cell — not a value in 0..peakDanger-1, so the claimed case analysis
fails. -/
theorem claim1_counterexample :
    Reachable ((Board.build ⟨3, 3⟩ 8 (fun p => !(p.x == 1 && p.y == 1))).digFieldAt
      ⟨1, 1⟩) ∧
    getCell ((Board.build ⟨3, 3⟩ 8 (fun p => !(p.x == 1 && p.y == 1))).digFieldAt
        ⟨1, 1⟩).size
      ((Board.build ⟨3, 3⟩ 8 (fun p => !(p.x == 1 && p.y == 1))).digFieldAt ⟨1, 1⟩).grid
        ⟨1, 1⟩ = some ⟨false, .revealed, 8⟩ ∧
    ((Board.build ⟨3, 3⟩ 8 (fun p => !(p.x == 1 && p.y == 1))).digFieldAt
      ⟨1, 1⟩).getStateAt ⟨1, 1⟩ = some ((peakDanger : Nat) : Int) ∧
    ¬((peakDanger : Nat) : Int) ≤ ((peakDanger : Nat) : Int) - 1 := by
  refine ⟨?_, by decide, by decide, by decide⟩
  exact Reachable.dig _ ⟨1, 1⟩ (Reachable.build ⟨3, 3⟩ 8 (fun p => !(p.x == 1 && p.y == 1))
    (by decide) (by decide) (by decide) (by decide) (by decide))

/-- C1 (amended): on every reachable board, getStateAt at a present cell
returns exactly one encoded value: -1 iff Hidden, -2 iff Flagged, -3 iff
Questioned, and a value in 0..peakDanger iff Revealed — peakDanger for a
revealed mine, and the adjacency count (which itself can reach peakDanger,
when all 8 neighbors are mines) for a revealed non-mine cell. -/
theorem claim1_state_encoding (b : Board) (h : Reachable b) (pos : Coordinate) (c : Cell)
    (hget : getCell b.size b.grid pos = some c) :
    ∃ s : Int, b.getStateAt pos = some s ∧
      (c.overlay = .hidden ↔ s = -1) ∧
      (c.overlay = .flagged ↔ s = -2) ∧
      (c.overlay = .questioned ↔ s = -3) ∧
      (c.overlay = .revealed ↔ 0 ≤ s ∧ s ≤ (peakDanger : Int)) ∧
      (c.overlay = .revealed → c.hasMine = true → s = (peakDanger : Int)) ∧
      (c.overlay = .revealed → c.hasMine = false →
        s = (c.adjacency : Int) ∧ c.adjacency ≤ peakDanger) := by
  have hadj : c.adjacency ≤ peakDanger := by
    rw [(reachable_wf h).adj pos c hget]
    unfold peakDanger
    calc (neighbors b.size pos).countP (mineAtB b.size b.grid) ≤
        (neighbors b.size pos).length := List.countP_le_length _
    _ ≤ 8 := neighbors_length_le b.size pos
  unfold Board.getStateAt
  rw [hget]
  obtain ⟨mine, ov, adj⟩ := c
  simp only at hadj
  cases ov with
  | hidden =>
    refine ⟨-1, rfl, by simp, ?_, ?_, ?_, ?_, ?_⟩
    · constructor
      · intro hcon; cases hcon
      · intro hcon; omega
    · constructor
      · intro hcon; cases hcon
      · intro hcon; omega
    · constructor
      · intro hcon; cases hcon
      · intro hcon
        unfold peakDanger at hcon
        omega
    · intro hcon; cases hcon
    · intro hcon; cases hcon
  | flagged =>
    refine ⟨-2, rfl, ?_, by simp, ?_, ?_, ?_, ?_⟩
    · constructor
      · intro hcon; cases hcon
      · intro hcon; omega
    · constructor
      · intro hcon; cases hcon
      · intro hcon; omega
    · constructor
      · intro hcon; cases hcon
      · intro hcon
        unfold peakDanger at hcon
        omega
    · intro hcon; cases hcon
    · intro hcon; cases hcon
  | questioned =>
    refine ⟨-3, rfl, ?_, ?_, by simp, ?_, ?_, ?_⟩
    · constructor
      · intro hcon; cases hcon
      · intro hcon; omega
    · constructor
      · intro hcon; cases hcon
      · intro hcon; omega
    · constructor
      · intro hcon; cases hcon
      · intro hcon
        unfold peakDanger at hcon
        omega
    · intro hcon; cases hcon
    · intro hcon; cases hcon
  | revealed =>
    cases mine with
    | true =>
      refine ⟨(peakDanger : Int), rfl, ?_, ?_, ?_, ?_, fun _ _ => rfl, ?_⟩
      · constructor
        · intro hcon; cases hcon
        · intro hcon
          unfold peakDanger at hcon
          omega
      · constructor
        · intro hcon; cases hcon
        · intro hcon
          unfold peakDanger at hcon
          omega
      · constructor
        · intro hcon; cases hcon
        · intro hcon
          unfold peakDanger at hcon
          omega
      · constructor
        · intro _
          unfold peakDanger
          omega
        · intro _; rfl
      · intro _ hcon; cases hcon
    | false =>
      refine ⟨(adj : Int), rfl, ?_, ?_, ?_, ?_, ?_, fun _ _ => ⟨rfl, hadj⟩⟩
      · constructor
        · intro hcon; cases hcon
        · intro hcon; omega
      · constructor
        · intro hcon; cases hcon
        · intro hcon; omega
      · constructor
        · intro hcon; cases hcon
        · intro hcon; omega
      · constructor
        · intro _
          unfold peakDanger at hadj ⊢
          omega
        · intro _; rfl
      · intro _ hcon; cases hcon

/-- C1 witness: the amended encoding theorem at the revealed safe corner of
the 4x1 board after a cascading dig. -/
theorem claim1_witness :
    Reachable ((Board.build ⟨4, 1⟩ 1 (fun p => p.x == 3)).digFieldAt ⟨0, 0⟩) ∧
    getCell ((Board.build ⟨4, 1⟩ 1 (fun p => p.x == 3)).digFieldAt ⟨0, 0⟩).size
      ((Board.build ⟨4, 1⟩ 1 (fun p => p.x == 3)).digFieldAt ⟨0, 0⟩).grid ⟨2, 0⟩ =
        some ⟨false, .revealed, 1⟩ ∧
    ∃ s : Int,
      ((Board.build ⟨4, 1⟩ 1 (fun p => p.x == 3)).digFieldAt ⟨0, 0⟩).getStateAt ⟨2, 0⟩ =
        some s ∧
      ((⟨false, .revealed, 1⟩ : Cell).overlay = .hidden ↔ s = -1) ∧
      ((⟨false, .revealed, 1⟩ : Cell).overlay = .flagged ↔ s = -2) ∧
      ((⟨false, .revealed, 1⟩ : Cell).overlay = .questioned ↔ s = -3) ∧
      ((⟨false, .revealed, 1⟩ : Cell).overlay = .revealed ↔
        0 ≤ s ∧ s ≤ (peakDanger : Int)) ∧
      ((⟨false, .revealed, 1⟩ : Cell).overlay = .revealed →
        (⟨false, .revealed, 1⟩ : Cell).hasMine = true → s = (peakDanger : Int)) ∧
      ((⟨false, .revealed, 1⟩ : Cell).overlay = .revealed →
        (⟨false, .revealed, 1⟩ : Cell).hasMine = false →
        s = ((⟨false, .revealed, 1⟩ : Cell).adjacency : Int) ∧
          (⟨false, .revealed, 1⟩ : Cell).adjacency ≤ peakDanger) := by
  have hreach : Reachable ((Board.build ⟨4, 1⟩ 1 (fun p => p.x == 3)).digFieldAt ⟨0, 0⟩) :=
    Reachable.dig _ ⟨0, 0⟩ (Reachable.build ⟨4, 1⟩ 1 (fun p => p.x == 3) (by decide)
      (by decide) (by decide) (by decide) (by decide))
  exact ⟨hreach, by decide, claim1_state_encoding _ hreach ⟨2, 0⟩ ⟨false, .revealed, 1⟩
    (by decide)⟩

/-- C8: the change log is a FIFO queue of batches — drainOldest pops exactly
the batch appended earliest (appending never changes which batch drains
first); on every reachable board each logged batch is a strictly
column-major-ordered sequence (so all coordinates sharing an x are
contiguous); and the log is emptied by rebuild and by a successful resize. -/
theorem claim8_changelog_fifo (b : Board) (h : Reachable b) :
    (∀ (batch : List Coordinate) (rest : List (List Coordinate)),
      drainOldest (batch :: rest) = (some batch, rest)) ∧
    drainOldest [] = (none, []) ∧
    (∀ (batch nb : List Coordinate) (rest : List (List Coordinate)),
      drainOldest (appendBatch (batch :: rest) nb) = (some batch, rest ++ [nb])) ∧
    (∀ batch ∈ b.changeLog, batch.Pairwise colLt) ∧
    (∀ batch ∈ b.changeLog, ∀ (i j k : Nat) (hi : i < batch.length)
      (hj : j < batch.length) (hk : k < batch.length), i ≤ j → j ≤ k →
      batch[i].x = batch[k].x → batch[j].x = batch[i].x) ∧
    (∀ m2 : Coordinate → Bool, (b.rebuild m2).changeLog = []) ∧
    (∀ (sx sy cnt : Int) (m2 : Coordinate → Bool),
      (b.resize sx sy cnt m2).2 = true → (b.resize sx sy cnt m2).1.changeLog = []) := by
  have hsorted := (reachable_wf h).logSorted
  refine ⟨fun batch rest => rfl, rfl, fun batch nb rest => rfl, hsorted, ?_, fun m2 => rfl, ?_⟩
  · intro batch hb i j k hi hj hk hij hjk hik
    have hpw := List.pairwise_iff_getElem.mp (hsorted batch hb)
    rcases Nat.eq_or_lt_of_le hij with rfl | hlt1
    · rfl
    · rcases Nat.eq_or_lt_of_le hjk with rfl | hlt2
      · exact hik.symm
      · have h1 := hpw i j hi hj hlt1
        have h2 := hpw j k hj hk hlt2
        unfold colLt at h1 h2
        omega
  · intro sx sy cnt m2 hok
    unfold Board.resize at hok ⊢
    by_cases hA : sx < 1 ∨ sy < 1
    · rw [if_pos hA] at hok
      cases hok
    · rw [if_neg hA] at hok ⊢
      by_cases hB : cnt < 1 ∨ sx * sy - 1 < cnt
      · rw [if_pos hB] at hok
        cases hok
      · rw [if_neg hB]
        rfl

/-- C8 witness: the theorem instantiated at the reachable 4x1 board after the
cascading dig, whose log holds one column-ordered batch. -/
theorem claim8_witness :
    Reachable ((Board.build ⟨4, 1⟩ 1 (fun p => p.x == 3)).digFieldAt ⟨0, 0⟩) ∧
    drainOldest ((Board.build ⟨4, 1⟩ 1 (fun p => p.x == 3)).digFieldAt ⟨0, 0⟩).changeLog =
      (some [⟨0, 0⟩, ⟨1, 0⟩, ⟨2, 0⟩], []) ∧
    (∀ batch ∈ ((Board.build ⟨4, 1⟩ 1 (fun p => p.x == 3)).digFieldAt ⟨0, 0⟩).changeLog,
      batch.Pairwise colLt) := by
  have hreach : Reachable ((Board.build ⟨4, 1⟩ 1 (fun p => p.x == 3)).digFieldAt ⟨0, 0⟩) :=
    Reachable.dig _ ⟨0, 0⟩ (Reachable.build ⟨4, 1⟩ 1 (fun p => p.x == 3) (by decide)
      (by decide) (by decide) (by decide) (by decide))
  exact ⟨hreach, by decide, (claim8_changelog_fifo _ hreach).2.2.2.1⟩

/-- C4 counterexample: on the 4x1 board with its mine at (3,0), flag (1,0) and
dig the Hidden zero-adjacency no-mine cell (0,0).  The cell (1,0) belongs to
the connected zero-adjacency region of (0,0), yet after the dig it is still
Flagged (state -2), not Revealed — the cascade does not reveal the whole
region because flagged cells block it, contradicting the claim. -/
theorem claim4_counterexample :
    ((Board.build ⟨4, 1⟩ 1 (fun p => p.x == 3)).markFieldAt ⟨1, 0⟩).outcome = .undefined ∧
    getCell ((Board.build ⟨4, 1⟩ 1 (fun p => p.x == 3)).markFieldAt ⟨1, 0⟩).size
      ((Board.build ⟨4, 1⟩ 1 (fun p => p.x == 3)).markFieldAt ⟨1, 0⟩).grid ⟨0, 0⟩ =
        some ⟨false, .hidden, 0⟩ ∧
    ZConn ((Board.build ⟨4, 1⟩ 1 (fun p => p.x == 3)).markFieldAt ⟨1, 0⟩).size
      ((Board.build ⟨4, 1⟩ 1 (fun p => p.x == 3)).markFieldAt ⟨1, 0⟩).grid ⟨0, 0⟩ ⟨1, 0⟩ ∧
    (((Board.build ⟨4, 1⟩ 1 (fun p => p.x == 3)).markFieldAt ⟨1, 0⟩).digFieldAt
      ⟨0, 0⟩).getStateAt ⟨1, 0⟩ = some (-2) := by
  refine ⟨by decide, by decide, ?_, by decide⟩
  exact ZConn.step ZConn.refl (by decide) (by decide)

/-- C4 (amended): digging a Hidden zero-adjacency no-mine cell reveals exactly
the positions reachable from it through Hidden zero-adjacency cells (the
Hidden connected zero region plus its Hidden border) that are themselves
Hidden; every other cell — including flagged cells inside the region — is
unchanged, and the revealed cells form the single appended change-log batch. -/
theorem claim4_flood_fill (b : Board) (pos : Coordinate) (c : Cell)
    (ho : b.outcome = .undefined) (hget : getCell b.size b.grid pos = some c)
    (hov : c.overlay = .hidden) (_hz : c.adjacency = 0) (hm : c.hasMine = false) :
    (∀ q c0, getCell b.size b.grid q = some c0 →
      (ReachSet b.size b.grid [pos] q ∧ c0.overlay = .hidden →
        getCell b.size (b.digFieldAt pos).grid q =
          some { c0 with overlay := .revealed }) ∧
      (¬(ReachSet b.size b.grid [pos] q ∧ c0.overlay = .hidden) →
        getCell b.size (b.digFieldAt pos).grid q = some c0)) ∧
    (∀ q, getCell b.size b.grid q = none →
      getCell b.size (b.digFieldAt pos).grid q = none) ∧
    (∃ batch, (b.digFieldAt pos).changeLog = b.changeLog ++ [batch] ∧
      ∀ q, q ∈ batch ↔
        ReachSet b.size b.grid [pos] q ∧ hiddenAtB b.size b.grid q = true) := by
  rw [digFieldAt_safe_eq ho hget hov hm]
  obtain ⟨ha, hb2, hc2, hd, he⟩ := revealLoop_spec b.size (9 * b.grid.length + 1) b.grid
    [pos] [] (revealLoop_fuel_ok b pos)
  have hcomp := revealLoop_complete b.size (9 * b.grid.length + 1) b.grid [pos] []
    (revealLoop_fuel_ok b pos)
  refine ⟨?_, ?_, ?_⟩
  · intro q c0 hg0
    constructor
    · rintro ⟨hreach, hhid⟩
      have hfin := hcomp q hreach
      rcases ha.getCell_rel b.size q with ⟨h1, _⟩ | ⟨d0, d1, h1, h2, hce⟩
      · rw [hg0] at h1
        cases h1
      · rw [hg0] at h1
        injection h1 with h1
        subst h1
        rcases hce with rfl | ⟨hh, rfl⟩
        · exfalso
          unfold hiddenAtB at hfin
          rw [h2] at hfin
          simp [hhid] at hfin
        · exact h2
    · intro hnot
      rcases ha.getCell_rel b.size q with ⟨h1, _⟩ | ⟨d0, d1, h1, h2, hce⟩
      · rw [hg0] at h1
        cases h1
      · rw [hg0] at h1
        injection h1 with h1
        subst h1
        rcases hce with rfl | ⟨hh, rfl⟩
        · exact h2
        · exfalso
          apply hnot
          refine ⟨?_, hh⟩
          apply hd q (hiddenAtB_true_iff.mpr ⟨c0, hg0, hh⟩)
          unfold hiddenAtB
          rw [h2]
          rfl
  · intro q hg0
    exact ha.none_rel hg0
  · refine ⟨_, rfl, ?_⟩
    intro q
    rw [List.mem_filter, mem_colMajorAll]
    constructor
    · rintro ⟨hin, hcont⟩
      have hmem := contains_iff_mem.mp hcont
      rcases (he q).mp hmem with hq | ⟨hh, hf⟩
      · cases hq
      · exact ⟨hd q hh hf, hh⟩
    · rintro ⟨hreach, hh⟩
      have hfin := hcomp q hreach
      refine ⟨?_, contains_iff_mem.mpr ((he q).mpr (Or.inr ⟨hh, hfin⟩))⟩
      rcases hiddenAtB_true_iff.mp hh with ⟨c1, hg1, _⟩
      exact (getCell_some_elim hg1).1

/-- C4 witness: the amended flood-fill theorem at the unflagged 4x1 board,
digging (0,0): the single batch holds exactly the reachable hidden cells. -/
theorem claim4_witness :
    (Board.build ⟨4, 1⟩ 1 (fun p => p.x == 3)).outcome = .undefined ∧
    getCell (Board.build ⟨4, 1⟩ 1 (fun p => p.x == 3)).size
      (Board.build ⟨4, 1⟩ 1 (fun p => p.x == 3)).grid ⟨0, 0⟩ =
        some ⟨false, .hidden, 0⟩ ∧
    (∃ batch, ((Board.build ⟨4, 1⟩ 1 (fun p => p.x == 3)).digFieldAt ⟨0, 0⟩).changeLog =
      (Board.build ⟨4, 1⟩ 1 (fun p => p.x == 3)).changeLog ++ [batch] ∧
      ∀ q, q ∈ batch ↔
        ReachSet (Board.build ⟨4, 1⟩ 1 (fun p => p.x == 3)).size
          (Board.build ⟨4, 1⟩ 1 (fun p => p.x == 3)).grid [⟨0, 0⟩] q ∧
        hiddenAtB (Board.build ⟨4, 1⟩ 1 (fun p => p.x == 3)).size
          (Board.build ⟨4, 1⟩ 1 (fun p => p.x == 3)).grid q = true) :=
  ⟨rfl, by decide,
    (claim4_flood_fill (Board.build ⟨4, 1⟩ 1 (fun p => p.x == 3)) ⟨0, 0⟩
      ⟨false, .hidden, 0⟩ rfl (by decide) rfl rfl rfl).2.2⟩

end Claims

end Minesweeper
